import Mathlib

/-!
# Verification of the `p2_metadata_table` GPU hash table

This file is a shallow embedding, in Lean 4, of the core of
`include/hashing_project/tables/p2_hashing_metadata.cuh`: the
metadata-filtered power-of-two-choice bucketed hash table.

The embedding models the sequential (single worker group, tile width 1)
execution of the device code, which is the semantics the repository's own
design notes sanction: the cooperative-group ballots and leader elections
reduce, for a single lane, to ascending-index scans where the first
candidate wins and every CAS against unchanged memory succeeds.

Machine integers are modelled as `Nat` with explicit `% 2^w` where the
C++ code relies on wrap-around.  The concrete sentinel values are the
ones produced by the repository's `md_p2_generic` instantiation:
`generate_p2_md_sentinel` (0) and `generate_p2_md_tombstone` with
offset 0 (`~0 = 2^64 - 1`).
-/

namespace P2MD

/-- 2^64, the modulus of `uint64_t` arithmetic. -/
def U64 : Nat := 18446744073709551616

/-- 2^32. -/
def U32 : Nat := 4294967296

/-- 2^16, the modulus of `uint16_t` tags. -/
def U16 : Nat := 65536

/-- `generate_p2_md_sentinel<Key>() = (Key) 0`: the empty-slot key. -/
def EMPTY_KEY : Nat := 0

/-- `generate_p2_md_tombstone<Key>(0) = ~((Key)0) - 0 = 2^64 - 1`. -/
def TOMBSTONE_KEY : Nat := U64 - 1

/-- `holdingKey = tombstoneKey - 1`. -/
def HOLDING_KEY : Nat := TOMBSTONE_KEY - 1

/-- `get_empty_tag() = (uint16_t) emptyKey`. -/
def emptyTag : Nat := EMPTY_KEY % U16

/-- `get_tombstone_tag() = (uint16_t) tombstoneKey`. -/
def tombstoneTag : Nat := TOMBSTONE_KEY % U16

/-- A key a caller may legally insert: a `uint64_t` value distinct from the
three reserved sentinels (a construction precondition of the table). -/
def liveK (k : Nat) : Prop :=
  k < U64 ∧ k ≠ EMPTY_KEY ∧ k ≠ TOMBSTONE_KEY ∧ k ≠ HOLDING_KEY

instance (k : Nat) : Decidable (liveK k) := by
  unfold liveK; infer_instance

/-- The loop body of `metadata_bucket::get_tag`: advance `key` until its low
16 bits avoid the two reserved tag values.  The loop needs at most two
steps (the reserved values are `0xFFFF` and `0`, and `0xFFFF + 1` wraps to
`0`); the fuel argument makes the recursion structural, and
`get_tag_go_fuel` below shows any fuel `≥ 2` computes the loop's answer. -/
def get_tag_go : Nat → Nat → Nat
  | 0, key => key % U16
  | fuel+1, key =>
    if key % U16 = emptyTag ∨ key % U16 = tombstoneTag then
      get_tag_go fuel (key + 1)
    else
      key % U16

/-- `metadata_bucket::get_tag`. -/
def get_tag (key : Nat) : Nat := get_tag_go 2 key

/-- `hash`: the device-side MurmurHash64A specialised to an 8-byte key
(`len = 8`, so the trailing-byte switch is skipped). -/
def murmur (key seed : Nat) : Nat :=
  let m : Nat := 14313749767032793493   -- 0xc6a4a7935bd1e995
  let h0 : Nat := (seed ^^^ ((8 * m) % U64)) % U64
  let k1 : Nat := (key % U64 * m) % U64
  let k2 : Nat := k1 ^^^ (k1 >>> 47)
  let k3 : Nat := (k2 * m) % U64
  let h1 : Nat := ((h0 ^^^ k3) * m) % U64
  let h2 : Nat := h1 ^^^ (h1 >>> 47)
  let h3 : Nat := (h2 * m) % U64
  h3 ^^^ (h3 >>> 47)

/-- One `(key, value)` slot of a data bucket (`ht_pair<Key, Val>`). -/
structure Slot where
  key : Nat
  val : Nat
deriving Repr, DecidableEq

/-- The table state: `p2_metadata_table`'s device arrays.  `buckets` is the
bucket store (`p2_md_bucket` array), `md` the metadata store
(`metadata_bucket` array of 16-bit tags), `locks` the per-bucket lock bits. -/
structure Table where
  nBuckets : Nat
  seed : Nat
  buckets : List (List Slot)
  md : List (List Nat)
  locks : List Bool
deriving Repr, DecidableEq

/-- Tag of slot `i` of metadata bucket `b`. -/
def tagAt (t : Table) (b i : Nat) : Nat := (t.md.getD b []).getD i 0

/-- Slot `i` of data bucket `b`. -/
def slotAt (t : Table) (b i : Nat) : Slot := (t.buckets.getD b []).getD i ⟨0, 0⟩

/-- Store a tag (`metadata[i] = v`). -/
def setTagS (t : Table) (b i v : Nat) : Table :=
  { t with md := t.md.set b ((t.md.getD b []).set i v) }

/-- Store a whole pair (`ht_store_packed_pair`). -/
def setSlotS (t : Table) (b i : Nat) (s : Slot) : Table :=
  { t with buckets := t.buckets.set b ((t.buckets.getD b []).set i s) }

/-- Store only the value field (`ht_store(&slots[i].val, v)`). -/
def setValS (t : Table) (b i v : Nat) : Table :=
  setSlotS t b i ⟨(slotAt t b i).key, v⟩

/-- Store only the key field (the key CAS of `erase_reference`). -/
def setKeyS (t : Table) (b i k : Nat) : Table :=
  setSlotS t b i ⟨k, (slotAt t b i).val⟩

/-- `stall_lock`: set the bucket's lock bit. -/
def lockB (t : Table) (b : Nat) : Table := { t with locks := t.locks.set b true }

/-- `unlock`: clear the bucket's lock bit. -/
def unlockB (t : Table) (b : Nat) : Table := { t with locks := t.locks.set b false }

/-- `get_first_bucket(hash) = (hash & BITMASK(32)) % n_buckets`. -/
def first_bucket (t : Table) (h : Nat) : Nat := (h % U32) % t.nBuckets

/-- `get_second_bucket(hash) = (hash >> 32) % n_buckets`. -/
def second_bucket (t : Table) (h : Nat) : Nat := (h / U32) % t.nBuckets

/-- The hash of a key under the table's seed (`hash(&key, sizeof(Key), seed)`). -/
def hashKey (t : Table) (key : Nat) : Nat := murmur key t.seed

/-- The primary (lock) bucket of a key. -/
def b0k (t : Table) (key : Nat) : Nat := first_bucket t (hashKey t key)

/-- The secondary bucket of a key. -/
def b1k (t : Table) (key : Nat) : Nat := second_bucket t (hashKey t key)

/-! ## Ballot masks (`load_fill_ballots` / `load_fill_ballots_huge`)

One coordinated pass over the `bucket_size` tags produces three bitmasks.
A mask is modelled as a `List Bool` whose `i`-th entry is bit `i`. -/

/-- Bits of the `empty_match` ballot. -/
def emptyMask (bs : Nat) (t : Table) (b : Nat) : List Bool :=
  (List.range bs).map (fun i => tagAt t b i == emptyTag)

/-- Bits of the `tombstone_match` ballot. -/
def tombMask (bs : Nat) (t : Table) (b : Nat) : List Bool :=
  (List.range bs).map (fun i => tagAt t b i == tombstoneTag)

/-- Bits of the `key_match` ballot. -/
def matchMask (bs : Nat) (t : Table) (b key : Nat) : List Bool :=
  (List.range bs).map (fun i => tagAt t b i == get_tag key)

/-- Bits of `empty_match | tombstone_match` (used for the occupancy
computation of the balancing phase). -/
def freeMask (bs : Nat) (t : Table) (b : Nat) : List Bool :=
  (List.range bs).map (fun i => tagAt t b i == emptyTag || tagAt t b i == tombstoneTag)

/-- `__popcll` of a ballot mask. -/
def countT (l : List Bool) : Nat := l.countP (fun x => x)

/-- `__popcll(mask) != 0`. -/
def anyT (l : List Bool) : Bool := l.any (fun x => x)

/-- First index `i` with `s ≤ i < s + n` satisfying `p` — the ascending
leader-election scan a width-1 tile performs over a ballot. -/
def firstIdx (p : Nat → Bool) : Nat → Nat → Option Nat
  | _, 0 => none
  | s, n+1 => if p s then some s else firstIdx p (s + 1) n

/-! ## Bucket operations -/

/-- `p2_md_bucket::upsert_existing`: scan the key-match ballot in ascending
order; at each candidate the leader re-checks that the slot still holds the
searched key and, if so, stores the new value. -/
def upsert_existing (bs : Nat) (t : Table) (b key val : Nat) (mask : List Bool) :
    Table × Option Nat :=
  match firstIdx (fun i => mask.getD i false && ((slotAt t b i).key == key)) 0 bs with
  | some i => (setValS t b i val, some i)
  | none => (t, none)

/-- `metadata_bucket::match_tombstone`: scan the tombstone ballot in
ascending order; the leader CASes the tag from the tombstone tag to the
key's tag; the first success wins. -/
def match_tombstone (bs : Nat) (t : Table) (b key : Nat) (mask : List Bool) :
    Table × Option Nat :=
  match firstIdx (fun i => mask.getD i false && (tagAt t b i == tombstoneTag)) 0 bs with
  | some i => (setTagS t b i (get_tag key), some i)
  | none => (t, none)

/-- `metadata_bucket::match_empty`: the same protocol over the empty ballot. -/
def match_empty (bs : Nat) (t : Table) (b key : Nat) (mask : List Bool) :
    Table × Option Nat :=
  match firstIdx (fun i => mask.getD i false && (tagAt t b i == emptyTag)) 0 bs with
  | some i => (setTagS t b i (get_tag key), some i)
  | none => (t, none)

/-- `p2_md_bucket::erase_reference`: scan the key-match ballot; the leader
re-loads the key and CASes it to the tombstone key; first success wins. -/
def erase_reference (bs : Nat) (t : Table) (b key : Nat) (mask : List Bool) :
    Table × Option Nat :=
  match firstIdx (fun i => mask.getD i false && ((slotAt t b i).key == key)) 0 bs with
  | some i => (setKeyS t b i TOMBSTONE_KEY, some i)
  | none => (t, none)

/-- `metadata_bucket::query_md_and_bucket_large`: scan tags; on a tag match
load the packed pair and check the real key; return the first hit's value. -/
def query_md_and_bucket (bs : Nat) (t : Table) (b key : Nat) : Option Nat :=
  (firstIdx (fun i => (tagAt t b i == get_tag key) && ((slotAt t b i).key == key)) 0 bs).map
    (fun i => (slotAt t b i).val)

/-- The combined effect of a successful metadata claim followed by
`ht_store_packed_pair`: the tag becomes the key's tag and the slot becomes
`(key, val)`. -/
def placePair (t : Table) (b i key val : Nat) : Table :=
  setSlotS (setTagS t b i (get_tag key)) b i ⟨key, val⟩

/-! ## `upsert_replace_internal`

The two probing loops.  Sequentially each loop iteration either returns or
leaves the state unchanged and re-loads identical ballots, so the fuel
argument (making the recursion structural) is irrelevant beyond the first
iteration; the phase characterisation lemmas below prove the exhaustion
branch unreachable for any positive fuel. -/

/-- The primary-bucket shortcut loop
(`while (bucket_0_size < bucket_size*P2_MD_CUTOFF)` with
`bucket_0_size = bucket_size - __popcll(bucket_0_empty)`;
`uint < double` comparison against `0.75 * bucket_size`, which is exact,
is the integer comparison `4 * size < 3 * bucket_size`).
Result: `some (t, some r)` for an in-loop `return r`, `some (t, none)`
when the loop exits to the balancing phase. -/
def upsert_phase1 (bs b0 key val : Nat) : Nat → Table → Option (Table × Option Bool)
  | 0, _ => none
  | fuel+1, t =>
    if 4 * (bs - countT (emptyMask bs t b0)) < 3 * bs then
      match (if anyT (matchMask bs t b0 key) then
               upsert_existing bs t b0 key val (matchMask bs t b0 key)
             else (t, none)) with
      | (t1, some _) => some (t1, some true)
      | (t1, none) =>
        match match_tombstone bs t1 b0 key (tombMask bs t b0) with
        | (t2, some i) => some (setSlotS t2 b0 i ⟨key, val⟩, some true)
        | (t2, none) =>
          match match_empty bs t2 b0 key (emptyMask bs t b0) with
          | (t3, some i) => some (setSlotS t3 b0 i ⟨key, val⟩, some true)
          | (t3, none) => upsert_phase1 bs b0 key val fuel t3
    else
      some (t, none)

/-- The two-bucket balancing loop
(`while (bucket_0_size != bucket_size || bucket_1_size != bucket_size)`
with sizes `bucket_size - __popcll(empty | tombstone)`): service matches in
either bucket first, then claim a tombstoned or empty slot in whichever
bucket currently holds fewer pairs. -/
def upsert_phase2 (bs b0 b1 key val : Nat) : Nat → Table → Option (Table × Bool)
  | 0, _ => none
  | fuel+1, t =>
    let size0 := bs - countT (freeMask bs t b0)
    let size1 := bs - countT (freeMask bs t b1)
    if size0 = bs ∧ size1 = bs then
      some (t, false)
    else
      match (if anyT (matchMask bs t b0 key) then
               upsert_existing bs t b0 key val (matchMask bs t b0 key)
             else (t, none)) with
      | (ta, some _) => some (ta, true)
      | (ta, none) =>
        match (if anyT (matchMask bs ta b1 key) then
                 upsert_existing bs ta b1 key val (matchMask bs ta b1 key)
               else (ta, none)) with
        | (tb, some _) => some (tb, true)
        | (tb, none) =>
          if size0 ≤ size1 then
            match match_tombstone bs tb b0 key (tombMask bs t b0) with
            | (tc, some i) => some (setSlotS tc b0 i ⟨key, val⟩, true)
            | (tc, none) =>
              match match_empty bs tc b0 key (emptyMask bs t b0) with
              | (td, some i) => some (setSlotS td b0 i ⟨key, val⟩, true)
              | (td, none) => upsert_phase2 bs b0 b1 key val fuel td
          else
            match match_tombstone bs tb b1 key (tombMask bs t b1) with
            | (tc, some i) => some (setSlotS tc b1 i ⟨key, val⟩, true)
            | (tc, none) =>
              match match_empty bs tc b1 key (emptyMask bs t b1) with
              | (td, some i) => some (setSlotS td b1 i ⟨key, val⟩, true)
              | (td, none) => upsert_phase2 bs b0 b1 key val fuel td

/-- `upsert_replace_internal`: the shortcut loop on `bucket_0`, then the
balancing loop over both candidate buckets. -/
def upsert_replace_internal (bs : Nat) (t : Table) (key val key_hash b0 : Nat) :
    Option (Table × Bool) :=
  match upsert_phase1 bs b0 key val (bs + 1) t with
  | none => none
  | some (t1, some r) => some (t1, r)
  | some (t1, none) =>
    upsert_phase2 bs b0 (second_bucket t1 key_hash) key val (bs + 1) t1

/-- `upsert_replace`: hash, lock the primary bucket, run the internal
routine, unlock. -/
def upsert_replace (bs : Nat) (t : Table) (key val : Nat) : Option (Table × Bool) :=
  let h := hashKey t key
  let b0 := first_bucket t h
  match upsert_replace_internal bs (lockB t b0) key val h b0 with
  | some (t', r) => some (unlockB t' b0, r)
  | none => none

/-- `remove`: lock the primary bucket, erase from `bucket_0` (tag-filtered),
else from `bucket_1`; on success tombstone the metadata tag; unlock. -/
def removeOp (bs : Nat) (t : Table) (key : Nat) : Table × Bool :=
  let h := hashKey t key
  let b0 := first_bucket t h
  let tL := lockB t b0
  match erase_reference bs tL b0 key (matchMask bs tL b0 key) with
  | (t1, some i) => (unlockB (setTagS t1 b0 i tombstoneTag) b0, true)
  | (t1, none) =>
    let b1 := second_bucket t1 h
    match erase_reference bs t1 b1 key (matchMask bs t1 b1 key) with
    | (t2, some i) => (unlockB (setTagS t2 b1 i tombstoneTag) b0, true)
    | (t2, none) => (unlockB t2 b0, false)

/-- `find_with_reference`: probe `bucket_0`'s metadata and data with the
tag-then-verify protocol, then `bucket_1`'s.  No lock is taken and nothing
is written; the state is returned unchanged alongside the result. -/
def find_with_reference (bs : Nat) (t : Table) (key : Nat) : Table × Option Nat :=
  let h := hashKey t key
  let b0 := first_bucket t h
  match query_md_and_bucket bs t b0 key with
  | some v => (t, some v)
  | none =>
    let b1 := second_bucket t h
    (t, query_md_and_bucket bs t b1 key)

/-- `find_with_reference_no_lock`: textually the same probe sequence (the
locked variant's lock calls are commented out in the source as well). -/
def find_with_reference_no_lock (bs : Nat) (t : Table) (key : Nat) : Table × Option Nat :=
  let h := hashKey t key
  let b0 := first_bucket t h
  match query_md_and_bucket bs t b0 key with
  | some v => (t, some v)
  | none =>
    let b1 := second_bucket t h
    (t, query_md_and_bucket bs t b1 key)

/-- `generate_on_device`'s bucket count:
`ext_n_buckets = (cache_capacity - 1)/bucket_size + 1` in `uint64_t`
arithmetic (the subtraction wraps at zero). -/
def n_buckets_of (capacity bs : Nat) : Nat :=
  ((capacity + (U64 - 1)) % U64) / bs + 1

/-- `generate_on_device` followed by `init_p2_md_table_kernel`: all slots
hold the sentinel pair, all tags are the empty tag, all locks are clear. -/
def initTable (bs capacity seed : Nat) : Table :=
  let nb := n_buckets_of capacity bs
  { nBuckets := nb
    seed := seed
    buckets := List.replicate nb (List.replicate bs ⟨EMPTY_KEY, 0⟩)
    md := List.replicate nb (List.replicate bs emptyTag)
    locks := List.replicate nb false }

/-- Table states reachable from an initialised table by the public
single-group operations (legal, non-sentinel keys). -/
inductive Reachable (bs : Nat) : Table → Prop where
  | init (capacity seed : Nat) : Reachable bs (initTable bs capacity seed)
  | upsert {t t' : Table} {r : Bool} (key val : Nat) :
      Reachable bs t → liveK key → upsert_replace bs t key val = some (t', r) →
      Reachable bs t'
  | remove {t t' : Table} {r : Bool} (key : Nat) :
      Reachable bs t → liveK key → removeOp bs t key = (t', r) →
      Reachable bs t'
  | query {t : Table} (key : Nat) :
      Reachable bs t → Reachable bs ((find_with_reference bs t key).1)

/-! ## Derived metadata counts -/

/-- Number of empty tags in a metadata bucket (`__popcll(empty_match)`). -/
def emptyCount (bs : Nat) (t : Table) (b : Nat) : Nat :=
  (List.range bs).countP (fun i => tagAt t b i == emptyTag)

/-- Number of tombstone tags in a metadata bucket. -/
def tombCount (bs : Nat) (t : Table) (b : Nat) : Nat :=
  (List.range bs).countP (fun i => tagAt t b i == tombstoneTag)

/-- Number of empty-or-tombstone tags (`__popcll(empty | tombstone)`). -/
def freeCount (bs : Nat) (t : Table) (b : Nat) : Nat :=
  (List.range bs).countP (fun i => tagAt t b i == emptyTag || tagAt t b i == tombstoneTag)

/-- The effect of `erase_reference` plus the metadata `set_tombstone`:
slot key becomes the tombstone key, tag becomes the tombstone tag. -/
def eraseAt (t : Table) (b j : Nat) : Table :=
  setTagS (setKeyS t b j TOMBSTONE_KEY) b j tombstoneTag

/-- One-cell table update: new tag and new slot at position `(b, i)`.
`placePair` and `eraseAt` are definitionally of this form. -/
def setCell (t : Table) (b i tg : Nat) (s : Slot) : Table :=
  { t with buckets := t.buckets.set b ((t.buckets.getD b []).set i s),
           md := t.md.set b ((t.md.getD b []).set i tg) }

/-! ## `firstIdx` characterisation -/

theorem firstIdx_eq_none {p : Nat → Bool} :
    ∀ {n s : Nat}, firstIdx p s n = none ↔ ∀ i, s ≤ i → i < s + n → p i = false := by
  intro n
  induction n with
  | zero => intro s; simp only [firstIdx, true_iff]; intro i h1 h2; omega
  | succ n ih =>
    intro s
    simp only [firstIdx]
    by_cases hs : p s
    · rw [if_pos hs]
      constructor
      · intro h; cases h
      · intro h
        have := h s (Nat.le_refl s) (by omega)
        rw [hs] at this; cases this
    · rw [if_neg hs, ih]
      constructor
      · intro h i hi hi2
        rcases Nat.eq_or_lt_of_le hi with rfl | hlt
        · exact Bool.eq_false_iff.mpr hs
        · exact h i hlt (by omega)
      · intro h i hi hi2
        exact h i (by omega) (by omega)

theorem firstIdx_eq_some {p : Nat → Bool} :
    ∀ {n s j : Nat}, firstIdx p s n = some j →
      s ≤ j ∧ j < s + n ∧ p j = true ∧ ∀ i, s ≤ i → i < j → p i = false := by
  intro n
  induction n with
  | zero => intro s j h; cases h
  | succ n ih =>
    intro s j h
    simp only [firstIdx] at h
    by_cases hs : p s
    · rw [if_pos hs, Option.some.injEq] at h
      subst h
      exact ⟨Nat.le_refl _, by omega, hs, fun i h1 h2 => by omega⟩
    · rw [if_neg hs] at h
      obtain ⟨h1, h2, h3, h4⟩ := ih h
      refine ⟨by omega, by omega, h3, fun i hi hi2 => ?_⟩
      rcases Nat.eq_or_lt_of_le hi with rfl | hlt
      · exact Bool.eq_false_iff.mpr hs
      · exact h4 i hlt hi2

theorem firstIdx_isSome {p : Nat → Bool} :
    ∀ {n s j : Nat}, s ≤ j → j < s + n → p j = true → (firstIdx p s n).isSome = true := by
  intro n
  induction n with
  | zero => intro s j h1 h2; omega
  | succ n ih =>
    intro s j h1 h2 h3
    simp only [firstIdx]
    by_cases hs : p s
    · rw [if_pos hs]; rfl
    · rw [if_neg hs]
      rcases Nat.eq_or_lt_of_le h1 with rfl | hlt
      · exact absurd h3 hs
      · exact ih hlt (by omega) h3

/-! ## Accessor lemmas for single-cell updates -/

theorem getD_set_self {α : Type} {l : List α} {i : Nat} (h : i < l.length) (a d : α) :
    (l.set i a).getD i d = a := by
  rw [List.getD_eq_getElem?_getD, List.getElem?_set_self h]; rfl

theorem getD_set_ne {α : Type} {l : List α} {i j : Nat} (h : i ≠ j) (a d : α) :
    (l.set i a).getD j d = l.getD j d := by
  rw [List.getD_eq_getElem?_getD, List.getElem?_set_ne h, ← List.getD_eq_getElem?_getD]

theorem getD_replicate {α : Type} {n i : Nat} (a d : α) :
    (List.replicate n a).getD i d = if i < n then a else d := by
  rw [List.getD_eq_getElem?_getD, List.getElem?_replicate]
  by_cases h : i < n <;> simp [h]

@[simp] theorem setCell_nBuckets (t : Table) (b i tg : Nat) (s : Slot) :
    (setCell t b i tg s).nBuckets = t.nBuckets := rfl

@[simp] theorem setCell_seed (t : Table) (b i tg : Nat) (s : Slot) :
    (setCell t b i tg s).seed = t.seed := rfl

@[simp] theorem setCell_locks (t : Table) (b i tg : Nat) (s : Slot) :
    (setCell t b i tg s).locks = t.locks := rfl

@[simp] theorem setCell_md_length (t : Table) (b i tg : Nat) (s : Slot) :
    (setCell t b i tg s).md.length = t.md.length := List.length_set ..

@[simp] theorem setCell_buckets_length (t : Table) (b i tg : Nat) (s : Slot) :
    (setCell t b i tg s).buckets.length = t.buckets.length := List.length_set ..

theorem placePair_eq_setCell (t : Table) (b i key val : Nat) :
    placePair t b i key val = setCell t b i (get_tag key) ⟨key, val⟩ := rfl

theorem eraseAt_eq_setCell (t : Table) (b j : Nat) :
    eraseAt t b j = setCell t b j tombstoneTag ⟨TOMBSTONE_KEY, (slotAt t b j).val⟩ := rfl

@[simp] theorem setValS_nBuckets (t : Table) (b i v : Nat) :
    (setValS t b i v).nBuckets = t.nBuckets := rfl

@[simp] theorem setValS_seed (t : Table) (b i v : Nat) :
    (setValS t b i v).seed = t.seed := rfl

@[simp] theorem setValS_locks (t : Table) (b i v : Nat) :
    (setValS t b i v).locks = t.locks := rfl

@[simp] theorem setValS_md (t : Table) (b i v : Nat) :
    (setValS t b i v).md = t.md := rfl

@[simp] theorem setValS_buckets_length (t : Table) (b i v : Nat) :
    (setValS t b i v).buckets.length = t.buckets.length := List.length_set ..

/-- The inner bucket list of a cell update, at an in-range bucket index. -/
theorem md_getD_setCell_self {t : Table} {b : Nat} (hb : b < t.md.length)
    (i tg : Nat) (s : Slot) :
    (setCell t b i tg s).md.getD b [] = (t.md.getD b []).set i tg := by
  unfold setCell
  simp only
  rw [List.getD_eq_getElem?_getD, List.getElem?_set_self (by simpa using hb)]
  rfl

theorem tagAt_setCell_self {t : Table} {b i : Nat} (hb : b < t.md.length)
    (hi : i < (t.md.getD b []).length) (tg : Nat) (s : Slot) :
    tagAt (setCell t b i tg s) b i = tg := by
  unfold tagAt
  rw [md_getD_setCell_self hb]
  exact getD_set_self hi tg 0

theorem tagAt_setCell_ne {t : Table} {b i b' i' : Nat} (h : b ≠ b' ∨ i ≠ i')
    (tg : Nat) (s : Slot) :
    tagAt (setCell t b i tg s) b' i' = tagAt t b' i' := by
  unfold tagAt setCell
  simp only
  by_cases hb : b = b'
  · subst hb
    rcases h with h | h
    · exact absurd rfl h
    · by_cases hmem : b < t.md.length
      · rw [List.getD_eq_getElem?_getD (t.md.set b _), List.getElem?_set_self (by simp [hmem])]
        simp only [Option.getD_some]
        exact getD_set_ne h tg 0
      · rw [List.set_eq_of_length_le (l := t.md) (by omega)]
  · rw [List.getD_eq_getElem?_getD (t.md.set b _), List.getElem?_set_ne hb,
      ← List.getD_eq_getElem?_getD]

theorem buckets_getD_setCell_self {t : Table} {b : Nat} (hb : b < t.buckets.length)
    (i tg : Nat) (s : Slot) :
    (setCell t b i tg s).buckets.getD b [] = (t.buckets.getD b []).set i s := by
  unfold setCell
  simp only
  rw [List.getD_eq_getElem?_getD, List.getElem?_set_self (by simpa using hb)]
  rfl

theorem slotAt_setCell_self {t : Table} {b i : Nat} (hb : b < t.buckets.length)
    (hi : i < (t.buckets.getD b []).length) (tg : Nat) (s : Slot) :
    slotAt (setCell t b i tg s) b i = s := by
  unfold slotAt
  rw [buckets_getD_setCell_self hb]
  exact getD_set_self hi s (⟨0, 0⟩ : Slot)

theorem slotAt_setCell_ne {t : Table} {b i b' i' : Nat} (h : b ≠ b' ∨ i ≠ i')
    (tg : Nat) (s : Slot) :
    slotAt (setCell t b i tg s) b' i' = slotAt t b' i' := by
  unfold slotAt setCell
  simp only
  by_cases hb : b = b'
  · subst hb
    rcases h with h | h
    · exact absurd rfl h
    · by_cases hmem : b < t.buckets.length
      · rw [List.getD_eq_getElem?_getD (t.buckets.set b _),
          List.getElem?_set_self (by simpa using hmem)]
        simp only [Option.getD_some]
        exact getD_set_ne h s (⟨0, 0⟩ : Slot)
      · rw [List.set_eq_of_length_le (l := t.buckets) (by omega)]
  · rw [List.getD_eq_getElem?_getD (t.buckets.set b _), List.getElem?_set_ne hb,
      ← List.getD_eq_getElem?_getD]

@[simp] theorem tagAt_setValS (t : Table) (b i v : Nat) (b' i' : Nat) :
    tagAt (setValS t b i v) b' i' = tagAt t b' i' := rfl

theorem slotAt_setValS_self {t : Table} {b i : Nat} (hb : b < t.buckets.length)
    (hi : i < (t.buckets.getD b []).length) (v : Nat) :
    slotAt (setValS t b i v) b i = ⟨(slotAt t b i).key, v⟩ := by
  unfold setValS setSlotS slotAt
  simp only
  rw [List.getD_eq_getElem?_getD (t.buckets.set b _), List.getElem?_set_self (by simpa using hb)]
  simp only [Option.getD_some]
  exact getD_set_self hi _ (⟨0, 0⟩ : Slot)

theorem slotAt_setValS_ne {t : Table} {b i b' i' : Nat} (h : b ≠ b' ∨ i ≠ i') (v : Nat) :
    slotAt (setValS t b i v) b' i' = slotAt t b' i' := by
  unfold setValS setSlotS slotAt
  simp only
  by_cases hb : b = b'
  · subst hb
    rcases h with h | h
    · exact absurd rfl h
    · by_cases hmem : b < t.buckets.length
      · rw [List.getD_eq_getElem?_getD (t.buckets.set b _),
          List.getElem?_set_self (by simpa using hmem)]
        simp only [Option.getD_some]
        exact getD_set_ne h _ (⟨0, 0⟩ : Slot)
      · rw [List.set_eq_of_length_le (l := t.buckets) (by omega)]
  · rw [List.getD_eq_getElem?_getD (t.buckets.set b _), List.getElem?_set_ne hb,
      ← List.getD_eq_getElem?_getD]

@[simp] theorem tagAt_lockB (t : Table) (b : Nat) (b' i' : Nat) :
    tagAt (lockB t b) b' i' = tagAt t b' i' := rfl

@[simp] theorem slotAt_lockB (t : Table) (b : Nat) (b' i' : Nat) :
    slotAt (lockB t b) b' i' = slotAt t b' i' := rfl

@[simp] theorem lockB_nBuckets (t : Table) (b : Nat) : (lockB t b).nBuckets = t.nBuckets := rfl

@[simp] theorem lockB_seed (t : Table) (b : Nat) : (lockB t b).seed = t.seed := rfl

@[simp] theorem lockB_md (t : Table) (b : Nat) : (lockB t b).md = t.md := rfl

@[simp] theorem lockB_buckets (t : Table) (b : Nat) : (lockB t b).buckets = t.buckets := rfl

/-- Clearing a clear lock bit is a no-op. -/
theorem set_replicate_false : ∀ (n b : Nat), (List.replicate n false).set b false = List.replicate n false := by
  intro n
  induction n with
  | zero => intro b; rfl
  | succ n ih =>
    intro b
    cases b with
    | zero => rfl
    | succ b => simp [List.replicate_succ, ih b]

/-! ## Mask lemmas -/

theorem maskAt_map {p : Nat → Bool} {bs i : Nat} (h : i < bs) :
    (((List.range bs).map p).getD i false) = p i := by
  rw [List.getD_eq_getElem?_getD, List.getElem?_map, List.getElem?_range h]
  rfl

theorem anyT_map {p : Nat → Bool} {bs : Nat} :
    anyT ((List.range bs).map p) = true ↔ ∃ i < bs, p i = true := by
  unfold anyT
  rw [List.any_eq_true]
  constructor
  · rintro ⟨x, hx, hxt⟩
    obtain ⟨i, hi, rfl⟩ := List.mem_map.mp hx
    exact ⟨i, List.mem_range.mp hi, hxt⟩
  · rintro ⟨i, hi, hp⟩
    exact ⟨p i, List.mem_map.mpr ⟨i, List.mem_range.mpr hi, rfl⟩, hp⟩

theorem countT_emptyMask (bs : Nat) (t : Table) (b : Nat) :
    countT (emptyMask bs t b) = emptyCount bs t b := by
  unfold countT emptyMask emptyCount
  rw [List.countP_map]
  rfl

theorem countT_tombMask (bs : Nat) (t : Table) (b : Nat) :
    countT (tombMask bs t b) = tombCount bs t b := by
  unfold countT tombMask tombCount
  rw [List.countP_map]
  rfl

theorem countT_freeMask (bs : Nat) (t : Table) (b : Nat) :
    countT (freeMask bs t b) = freeCount bs t b := by
  unfold countT freeMask freeCount
  rw [List.countP_map]
  rfl

theorem emptyCount_le (bs : Nat) (t : Table) (b : Nat) : emptyCount bs t b ≤ bs := by
  calc emptyCount bs t b ≤ (List.range bs).length := List.countP_le_length _
  _ = bs := List.length_range bs

theorem freeCount_le (bs : Nat) (t : Table) (b : Nat) : freeCount bs t b ≤ bs := by
  calc freeCount bs t b ≤ (List.range bs).length := List.countP_le_length _
  _ = bs := List.length_range bs

theorem emptyCount_pos {bs : Nat} {t : Table} {b : Nat} (h : 0 < emptyCount bs t b) :
    ∃ i < bs, tagAt t b i = emptyTag := by
  obtain ⟨i, hi, hp⟩ := List.countP_pos_iff.mp h
  exact ⟨i, List.mem_range.mp hi, by simpa using hp⟩

theorem freeCount_pos {bs : Nat} {t : Table} {b : Nat} (h : 0 < freeCount bs t b) :
    ∃ i < bs, tagAt t b i = emptyTag ∨ tagAt t b i = tombstoneTag := by
  obtain ⟨i, hi, hp⟩ := List.countP_pos_iff.mp h
  refine ⟨i, List.mem_range.mp hi, ?_⟩
  rcases Bool.or_eq_true_iff.mp hp with h | h
  · exact Or.inl (by simpa using h)
  · exact Or.inr (by simpa using h)

theorem freeCount_eq_zero {bs : Nat} {t : Table} {b : Nat} :
    freeCount bs t b = 0 ↔ ∀ i < bs, tagAt t b i ≠ emptyTag ∧ tagAt t b i ≠ tombstoneTag := by
  unfold freeCount
  rw [List.countP_eq_zero]
  constructor
  · intro h i hi
    have := h i (List.mem_range.mpr hi)
    simp only [Bool.or_eq_true, beq_iff_eq, not_or] at this
    exact this
  · intro h i hi
    have := h i (List.mem_range.mp hi)
    simp only [Bool.or_eq_true, beq_iff_eq, not_or]
    exact this

theorem emptyCount_eq_zero_of_freeCount {bs : Nat} {t : Table} {b : Nat}
    (h : freeCount bs t b = 0) : emptyCount bs t b = 0 := by
  unfold emptyCount
  rw [List.countP_eq_zero]
  intro i hi
  have := (freeCount_eq_zero.mp h) i (List.mem_range.mp hi)
  simp only [beq_iff_eq]
  exact this.1

/-- `emptyCount` is unchanged by an in-range cell update whose old and new
tags agree on being the empty tag. -/
theorem emptyCount_setCell_eq {t : Table} {b j : Nat} {tg : Nat} {s : Slot} (bs : Nat)
    (hb : b < t.md.length) (hj : j < (t.md.getD b []).length)
    (h : (tg = emptyTag) ↔ (tagAt t b j = emptyTag)) (b' : Nat) :
    emptyCount bs (setCell t b j tg s) b' = emptyCount bs t b' := by
  unfold emptyCount
  refine List.countP_congr fun i _ => ?_
  by_cases hc : b = b' ∧ j = i
  · obtain ⟨rfl, rfl⟩ := hc
    rw [tagAt_setCell_self hb hj]
    simpa using h
  · rw [tagAt_setCell_ne (by tauto)]

/-- `emptyCount` never increases under an in-range cell update to a
non-empty tag. -/
theorem emptyCount_setCell_le {t : Table} {b j : Nat} {tg : Nat} {s : Slot} (bs : Nat)
    (hb : b < t.md.length) (hj : j < (t.md.getD b []).length)
    (h : tg ≠ emptyTag) (b' : Nat) :
    emptyCount bs (setCell t b j tg s) b' ≤ emptyCount bs t b' := by
  unfold emptyCount
  refine List.countP_mono_left fun i _ hp => ?_
  by_cases hc : b = b' ∧ j = i
  · obtain ⟨rfl, rfl⟩ := hc
    rw [tagAt_setCell_self hb hj] at hp
    simp only [beq_iff_eq] at hp
    exact absurd hp h
  · rw [tagAt_setCell_ne (by tauto)] at hp
    exact hp

/-- `emptyCount` is unchanged by a value-only store. -/
theorem emptyCount_setValS (bs : Nat) (t : Table) (b i v b' : Nat) :
    emptyCount bs (setValS t b i v) b' = emptyCount bs t b' := by
  unfold emptyCount
  exact List.countP_congr fun j _ => by rw [tagAt_setValS]

@[simp] theorem emptyCount_lockB (bs : Nat) (t : Table) (b b' : Nat) :
    emptyCount bs (lockB t b) b' = emptyCount bs t b' := rfl

theorem firstIdx_eq_some_intro {p : Nat → Bool} {n j : Nat} (hj : j < n) (hpj : p j = true)
    (hmin : ∀ i < j, p i = false) : firstIdx p 0 n = some j := by
  have hsome := firstIdx_isSome (p := p) (n := n) (s := 0) (Nat.zero_le j) (by omega) hpj
  obtain ⟨j', hj'⟩ := Option.isSome_iff_exists.mp hsome
  obtain ⟨-, -, hpj', hmin'⟩ := firstIdx_eq_some hj'
  rcases Nat.lt_trichotomy j j' with h | h | h
  · have := hmin' j (Nat.zero_le j) h
    rw [hpj] at this; cases this
  · rw [hj', h]
  · have := hmin j' h
    rw [hpj'] at this; cases this

/-! ## Numeric facts about the sentinels and tags -/

theorem emptyTag_eq : emptyTag = 0 := rfl

theorem tombstoneTag_eq : tombstoneTag = 65535 := by decide

theorem sentinels_distinct :
    EMPTY_KEY ≠ TOMBSTONE_KEY ∧ EMPTY_KEY ≠ HOLDING_KEY ∧ TOMBSTONE_KEY ≠ HOLDING_KEY :=
  ⟨by decide, by decide, by decide⟩

theorem get_tag_go_succ (f key : Nat) :
    get_tag_go (f + 1) key =
      if key % U16 = emptyTag ∨ key % U16 = tombstoneTag then get_tag_go f (key + 1)
      else key % U16 := rfl

theorem get_tag_go_zero (key : Nat) : get_tag_go 0 key = key % U16 := rfl

/-- The tag-derivation loop produces its answer within two steps, and larger
fuel does not change it. -/
theorem get_tag_go_two_add (f key : Nat) : get_tag_go (f + 2) key = get_tag_go 2 key := by
  by_cases h0 : key % U16 = emptyTag ∨ key % U16 = tombstoneTag
  · rw [show f + 2 = (f + 1) + 1 from rfl]
    unfold get_tag_go
    rw [if_pos h0, if_pos h0]
    by_cases h1 : (key + 1) % U16 = emptyTag ∨ (key + 1) % U16 = tombstoneTag
    · unfold get_tag_go
      rw [if_pos h1, if_pos h1]
      have hgood : ¬((key + 2) % U16 = emptyTag ∨ (key + 2) % U16 = tombstoneTag) := by
        rw [emptyTag_eq, tombstoneTag_eq] at h0 h1 ⊢
        unfold U16 at h0 h1 ⊢
        omega
      cases f with
      | zero => rfl
      | succ f =>
        unfold get_tag_go
        rw [if_neg hgood]
    · unfold get_tag_go
      rw [if_neg h1, if_neg h1]
  · unfold get_tag_go
    rw [if_neg h0, if_neg h0]

/-- Any fuel of at least two computes `get_tag`. -/
theorem get_tag_go_fuel {f : Nat} (h : 2 ≤ f) (key : Nat) :
    get_tag_go f key = get_tag key := by
  obtain ⟨f', rfl⟩ : ∃ f', f = f' + 2 := ⟨f - 2, by omega⟩
  exact get_tag_go_two_add f' key

/-- The derived tag is a 16-bit value distinct from both reserved tags. -/
theorem get_tag_spec (key : Nat) :
    get_tag key ≠ emptyTag ∧ get_tag key ≠ tombstoneTag ∧ get_tag key < U16 := by
  unfold get_tag
  rw [show (2 : Nat) = 1 + 1 from rfl, get_tag_go_succ]
  by_cases h0 : key % U16 = emptyTag ∨ key % U16 = tombstoneTag
  · rw [if_pos h0, show (1 : Nat) = 0 + 1 from rfl, get_tag_go_succ]
    by_cases h1 : (key + 1) % U16 = emptyTag ∨ (key + 1) % U16 = tombstoneTag
    · rw [if_pos h1, get_tag_go_zero]
      rw [emptyTag_eq, tombstoneTag_eq] at h0 h1 ⊢
      unfold U16 at h0 h1 ⊢
      omega
    · rw [if_neg h1]
      push_neg at h1
      exact ⟨h1.1, h1.2, Nat.mod_lt _ (by decide)⟩
  · rw [if_neg h0]
    push_neg at h0
    exact ⟨h0.1, h0.2, Nat.mod_lt _ (by decide)⟩

/-! ## The well-formedness invariant -/

/-- Invariants of every reachable table state.  `alignE`/`alignT`/`alignR`
are the metadata-alignment invariant of §3 of the design (tags mirror the
slot contents), `place` says a live key sits only in one of its two
candidate buckets, `uniq` is the no-duplicate invariant, and `bal` records
that a key resident in its secondary bucket was inserted while its primary
bucket's empty count was at or below the `P2_MD_CUTOFF` threshold — the
quantity the shortcut condition tests, which only ever decreases. -/
structure WF (bs : Nat) (t : Table) : Prop where
  nbPos : 0 < t.nBuckets
  bLen : t.buckets.length = t.nBuckets
  mLen : t.md.length = t.nBuckets
  bEach : ∀ b < t.nBuckets, (t.buckets.getD b []).length = bs
  mEach : ∀ b < t.nBuckets, (t.md.getD b []).length = bs
  alignE : ∀ b < t.nBuckets, ∀ i < bs, (tagAt t b i = emptyTag ↔ (slotAt t b i).key = EMPTY_KEY)
  alignT : ∀ b < t.nBuckets, ∀ i < bs, (tagAt t b i = tombstoneTag ↔ (slotAt t b i).key = TOMBSTONE_KEY)
  alignR : ∀ b < t.nBuckets, ∀ i < bs, liveK (slotAt t b i).key → tagAt t b i = get_tag (slotAt t b i).key
  keyW : ∀ b < t.nBuckets, ∀ i < bs, (slotAt t b i).key < U64 ∧ (slotAt t b i).key ≠ HOLDING_KEY
  place : ∀ b < t.nBuckets, ∀ i < bs, liveK (slotAt t b i).key →
      b = b0k t (slotAt t b i).key ∨ b = b1k t (slotAt t b i).key
  uniq : ∀ b < t.nBuckets, ∀ i < bs, ∀ b' < t.nBuckets, ∀ i' < bs,
      liveK (slotAt t b i).key → (slotAt t b' i').key = (slotAt t b i).key → b = b' ∧ i = i'
  bal : ∀ b < t.nBuckets, ∀ i < bs, liveK (slotAt t b i).key →
      b ≠ b0k t (slotAt t b i).key → 4 * emptyCount bs t (b0k t (slotAt t b i).key) ≤ bs

theorem b0k_lt {t : Table} (h : 0 < t.nBuckets) (key : Nat) : b0k t key < t.nBuckets :=
  Nat.mod_lt _ h

theorem b1k_lt {t : Table} (h : 0 < t.nBuckets) (key : Nat) : b1k t key < t.nBuckets :=
  Nat.mod_lt _ h

/-- A slot whose key is a given live key classifies the tag via `alignR`;
conversely a slot in a bucket where the key is absent cannot match. -/
theorem WF.not_live_of_freeTag {bs : Nat} {t : Table} (hwf : WF bs t) {b i : Nat}
    (hb : b < t.nBuckets) (hi : i < bs)
    (h : tagAt t b i = emptyTag ∨ tagAt t b i = tombstoneTag) :
    ¬ liveK (slotAt t b i).key := by
  rcases h with h | h
  · have := (hwf.alignE b hb i hi).mp h
    intro hl
    exact hl.2.1 this
  · have := (hwf.alignT b hb i hi).mp h
    intro hl
    exact hl.2.2.1 this

/-! ## Characterisation of the bucket operations -/

theorem upsert_existing_of_absent {bs : Nat} {t : Table} {b key val : Nat} (mask : List Bool)
    (h : ∀ i < bs, (slotAt t b i).key ≠ key) :
    upsert_existing bs t b key val mask = (t, none) := by
  unfold upsert_existing
  have hnone : firstIdx (fun i => mask.getD i false && ((slotAt t b i).key == key)) 0 bs = none := by
    rw [firstIdx_eq_none]
    intro i _ hi2
    have := h i (by omega)
    simp [this]
  rw [hnone]

theorem upsert_existing_of_live {bs : Nat} {t : Table} {b key val j : Nat} (hj : j < bs)
    (hkey : (slotAt t b j).key = key) (htag : tagAt t b j = get_tag key)
    (huni : ∀ i < bs, (slotAt t b i).key = key → i = j) :
    upsert_existing bs t b key val (matchMask bs t b key) = (setValS t b j val, some j) := by
  unfold upsert_existing
  have hfind : firstIdx
      (fun i => (matchMask bs t b key).getD i false && ((slotAt t b i).key == key)) 0 bs
      = some j := by
    refine firstIdx_eq_some_intro hj ?_ ?_
    · unfold matchMask
      rw [maskAt_map hj]
      simp [htag, hkey]
    · intro i hij
      by_cases hk : (slotAt t b i).key = key
      · have := huni i (by omega) hk
        omega
      · simp [hk]
  rw [hfind]

theorem match_tombstone_of_none {bs : Nat} {t : Table} {b key : Nat} (mask : List Bool)
    (h : ∀ i < bs, tagAt t b i ≠ tombstoneTag) :
    match_tombstone bs t b key mask = (t, none) := by
  unfold match_tombstone
  have hnone : firstIdx (fun i => mask.getD i false && (tagAt t b i == tombstoneTag)) 0 bs = none := by
    rw [firstIdx_eq_none]
    intro i _ hi2
    have := h i (by omega)
    simp [this]
  rw [hnone]

theorem match_tombstone_of_exists {bs : Nat} {t : Table} {b key : Nat}
    (h : ∃ i < bs, tagAt t b i = tombstoneTag) :
    ∃ j < bs, tagAt t b j = tombstoneTag ∧
      match_tombstone bs t b key (tombMask bs t b) = (setTagS t b j (get_tag key), some j) := by
  obtain ⟨i0, hi0, ht0⟩ := h
  have hp : ((tombMask bs t b).getD i0 false && (tagAt t b i0 == tombstoneTag)) = true := by
    unfold tombMask
    rw [maskAt_map hi0]
    simp [ht0]
  have hsome := firstIdx_isSome
    (p := fun i => (tombMask bs t b).getD i false && (tagAt t b i == tombstoneTag))
    (n := bs) (s := 0) (Nat.zero_le i0) (by omega) hp
  obtain ⟨j, hj⟩ := Option.isSome_iff_exists.mp hsome
  obtain ⟨-, hjlt, hpj, -⟩ := firstIdx_eq_some hj
  have htj : tagAt t b j = tombstoneTag := by
    simp only [Bool.and_eq_true, beq_iff_eq] at hpj
    exact hpj.2
  refine ⟨j, by omega, htj, ?_⟩
  unfold match_tombstone
  rw [hj]

theorem match_empty_of_none {bs : Nat} {t : Table} {b key : Nat} (mask : List Bool)
    (h : ∀ i < bs, tagAt t b i ≠ emptyTag) :
    match_empty bs t b key mask = (t, none) := by
  unfold match_empty
  have hnone : firstIdx (fun i => mask.getD i false && (tagAt t b i == emptyTag)) 0 bs = none := by
    rw [firstIdx_eq_none]
    intro i _ hi2
    have := h i (by omega)
    simp [this]
  rw [hnone]

theorem match_empty_of_exists {bs : Nat} {t : Table} {b key : Nat}
    (h : ∃ i < bs, tagAt t b i = emptyTag) :
    ∃ j < bs, tagAt t b j = emptyTag ∧
      match_empty bs t b key (emptyMask bs t b) = (setTagS t b j (get_tag key), some j) := by
  obtain ⟨i0, hi0, ht0⟩ := h
  have hp : ((emptyMask bs t b).getD i0 false && (tagAt t b i0 == emptyTag)) = true := by
    unfold emptyMask
    rw [maskAt_map hi0]
    simp [ht0]
  have hsome := firstIdx_isSome
    (p := fun i => (emptyMask bs t b).getD i false && (tagAt t b i == emptyTag))
    (n := bs) (s := 0) (Nat.zero_le i0) (by omega) hp
  obtain ⟨j, hj⟩ := Option.isSome_iff_exists.mp hsome
  obtain ⟨-, hjlt, hpj, -⟩ := firstIdx_eq_some hj
  have htj : tagAt t b j = emptyTag := by
    simp only [Bool.and_eq_true, beq_iff_eq] at hpj
    exact hpj.2
  refine ⟨j, by omega, htj, ?_⟩
  unfold match_empty
  rw [hj]

theorem erase_reference_of_absent {bs : Nat} {t : Table} {b key : Nat} (mask : List Bool)
    (h : ∀ i < bs, (slotAt t b i).key ≠ key) :
    erase_reference bs t b key mask = (t, none) := by
  unfold erase_reference
  have hnone : firstIdx (fun i => mask.getD i false && ((slotAt t b i).key == key)) 0 bs = none := by
    rw [firstIdx_eq_none]
    intro i _ hi2
    have := h i (by omega)
    simp [this]
  rw [hnone]

theorem erase_reference_of_live {bs : Nat} {t : Table} {b key j : Nat} (hj : j < bs)
    (hkey : (slotAt t b j).key = key) (htag : tagAt t b j = get_tag key)
    (huni : ∀ i < bs, (slotAt t b i).key = key → i = j) :
    erase_reference bs t b key (matchMask bs t b key) = (setKeyS t b j TOMBSTONE_KEY, some j) := by
  unfold erase_reference
  have hfind : firstIdx
      (fun i => (matchMask bs t b key).getD i false && ((slotAt t b i).key == key)) 0 bs
      = some j := by
    refine firstIdx_eq_some_intro hj ?_ ?_
    · unfold matchMask
      rw [maskAt_map hj]
      simp [htag, hkey]
    · intro i hij
      by_cases hk : (slotAt t b i).key = key
      · have := huni i (by omega) hk
        omega
      · simp [hk]
  rw [hfind]

theorem query_md_of_absent {bs : Nat} {t : Table} {b key : Nat}
    (h : ∀ i < bs, (slotAt t b i).key ≠ key) :
    query_md_and_bucket bs t b key = none := by
  unfold query_md_and_bucket
  have hnone : firstIdx
      (fun i => (tagAt t b i == get_tag key) && ((slotAt t b i).key == key)) 0 bs = none := by
    rw [firstIdx_eq_none]
    intro i _ hi2
    have := h i (by omega)
    simp [this]
  rw [hnone]
  rfl

theorem query_md_of_live {bs : Nat} {t : Table} {b key j : Nat} (hj : j < bs)
    (hkey : (slotAt t b j).key = key) (htag : tagAt t b j = get_tag key)
    (huni : ∀ i < bs, (slotAt t b i).key = key → i = j) :
    query_md_and_bucket bs t b key = some (slotAt t b j).val := by
  unfold query_md_and_bucket
  have hfind : firstIdx
      (fun i => (tagAt t b i == get_tag key) && ((slotAt t b i).key == key)) 0 bs = some j := by
    refine firstIdx_eq_some_intro hj (by simp [htag, hkey]) ?_
    intro i hij
    by_cases hk : (slotAt t b i).key = key
    · have := huni i (by omega) hk
      omega
    · simp [hk]
  rw [hfind]
  rfl

/-! ## Characterisation of the probing phases (sequential execution)

With a single worker group the state never changes between a ballot load
and its use, so each loop iteration of `upsert_replace_internal` either
returns or exits the loop; the fuel is never exhausted. -/

theorem phase1_exit {bs b0 key val : Nat} {t : Table} (f : Nat)
    (h : ¬ 4 * (bs - countT (emptyMask bs t b0)) < 3 * bs) :
    upsert_phase1 bs b0 key val (f + 1) t = some (t, none) := by
  unfold upsert_phase1
  rw [if_neg h]

theorem phase1_live {bs b0 key val j : Nat} {t : Table} (f : Nat)
    (hcond : 4 * (bs - countT (emptyMask bs t b0)) < 3 * bs)
    (hj : j < bs) (hkey : (slotAt t b0 j).key = key) (htag : tagAt t b0 j = get_tag key)
    (huni : ∀ i < bs, (slotAt t b0 i).key = key → i = j) :
    upsert_phase1 bs b0 key val (f + 1) t = some (setValS t b0 j val, some true) := by
  unfold upsert_phase1
  rw [if_pos hcond]
  have hany : anyT (matchMask bs t b0 key) = true := by
    unfold matchMask
    rw [anyT_map]
    exact ⟨j, hj, by simp [htag]⟩
  rw [if_pos hany]
  simp only [upsert_existing_of_live hj hkey htag huni]

theorem phase1_claim {bs b0 key val : Nat} {t : Table} (f : Nat)
    (hcond : 4 * (bs - countT (emptyMask bs t b0)) < 3 * bs)
    (habs : ∀ i < bs, (slotAt t b0 i).key ≠ key) :
    ∃ j < bs, (tagAt t b0 j = emptyTag ∨ tagAt t b0 j = tombstoneTag) ∧
      upsert_phase1 bs b0 key val (f + 1) t = some (placePair t b0 j key val, some true) := by
  have hup : (if anyT (matchMask bs t b0 key) then
      upsert_existing bs t b0 key val (matchMask bs t b0 key) else (t, none)) = (t, none) := by
    by_cases hany : anyT (matchMask bs t b0 key)
    · rw [if_pos hany, upsert_existing_of_absent _ habs]
    · rw [if_neg hany]
  by_cases htm : ∃ i < bs, tagAt t b0 i = tombstoneTag
  · obtain ⟨j, hjlt, htj, heq⟩ := @match_tombstone_of_exists bs t b0 key htm
    refine ⟨j, hjlt, Or.inr htj, ?_⟩
    unfold upsert_phase1
    rw [if_pos hcond]
    simp only [hup, heq]
    rfl
  · push_neg at htm
    have he : 0 < emptyCount bs t b0 := by
      have h1 := countT_emptyMask bs t b0
      have h2 := emptyCount_le bs t b0
      omega
    obtain ⟨j, hjlt, htj, heq⟩ := @match_empty_of_exists bs t b0 key (emptyCount_pos he)
    refine ⟨j, hjlt, Or.inl htj, ?_⟩
    unfold upsert_phase1
    rw [if_pos hcond]
    simp only [hup, match_tombstone_of_none (tombMask bs t b0) htm, heq]
    rfl

theorem phase2_full {bs b0 b1 key val : Nat} {t : Table} (f : Nat)
    (h0 : freeCount bs t b0 = 0) (h1 : freeCount bs t b1 = 0) :
    upsert_phase2 bs b0 b1 key val (f + 1) t = some (t, false) := by
  unfold upsert_phase2
  simp only [countT_freeMask, h0, h1, Nat.sub_zero, and_self, if_true]

theorem phase2_notfull_cond {bs b0 b1 : Nat} {t : Table}
    (hne : ¬ (freeCount bs t b0 = 0 ∧ freeCount bs t b1 = 0)) :
    ¬ (bs - countT (freeMask bs t b0) = bs ∧ bs - countT (freeMask bs t b1) = bs) := by
  rw [countT_freeMask, countT_freeMask]
  have g0 := freeCount_le bs t b0
  have g1 := freeCount_le bs t b1
  intro hc
  rcases Decidable.not_and_iff_or_not.mp hne with h | h <;> omega

theorem phase2_live0 {bs b0 b1 key val j : Nat} {t : Table} (f : Nat)
    (hne : ¬ (freeCount bs t b0 = 0 ∧ freeCount bs t b1 = 0))
    (hj : j < bs) (hkey : (slotAt t b0 j).key = key) (htag : tagAt t b0 j = get_tag key)
    (huni : ∀ i < bs, (slotAt t b0 i).key = key → i = j) :
    upsert_phase2 bs b0 b1 key val (f + 1) t = some (setValS t b0 j val, true) := by
  unfold upsert_phase2
  rw [if_neg (phase2_notfull_cond hne)]
  have hany : anyT (matchMask bs t b0 key) = true := by
    unfold matchMask
    rw [anyT_map]
    exact ⟨j, hj, by simp [htag]⟩
  rw [if_pos hany]
  simp only [upsert_existing_of_live hj hkey htag huni]

theorem phase2_live1 {bs b0 b1 key val j : Nat} {t : Table} (f : Nat)
    (hne : ¬ (freeCount bs t b0 = 0 ∧ freeCount bs t b1 = 0))
    (habs0 : ∀ i < bs, (slotAt t b0 i).key ≠ key)
    (hj : j < bs) (hkey : (slotAt t b1 j).key = key) (htag : tagAt t b1 j = get_tag key)
    (huni : ∀ i < bs, (slotAt t b1 i).key = key → i = j) :
    upsert_phase2 bs b0 b1 key val (f + 1) t = some (setValS t b1 j val, true) := by
  unfold upsert_phase2
  rw [if_neg (phase2_notfull_cond hne)]
  have hup : (if anyT (matchMask bs t b0 key) then
      upsert_existing bs t b0 key val (matchMask bs t b0 key) else (t, none)) = (t, none) := by
    by_cases hany : anyT (matchMask bs t b0 key)
    · rw [if_pos hany, upsert_existing_of_absent _ habs0]
    · rw [if_neg hany]
  have hany1 : anyT (matchMask bs t b1 key) = true := by
    unfold matchMask
    rw [anyT_map]
    exact ⟨j, hj, by simp [htag]⟩
  simp only [hup, hany1, if_true, upsert_existing_of_live hj hkey htag huni]

theorem phase2_claim {bs b0 b1 key val : Nat} {t : Table} (f : Nat)
    (hne : ¬ (freeCount bs t b0 = 0 ∧ freeCount bs t b1 = 0))
    (habs0 : ∀ i < bs, (slotAt t b0 i).key ≠ key)
    (habs1 : ∀ i < bs, (slotAt t b1 i).key ≠ key) :
    ∃ b j, (b = b0 ∨ b = b1) ∧ j < bs ∧
      (tagAt t b j = emptyTag ∨ tagAt t b j = tombstoneTag) ∧
      upsert_phase2 bs b0 b1 key val (f + 1) t = some (placePair t b j key val, true) := by
  have hup0 : (if anyT (matchMask bs t b0 key) then
      upsert_existing bs t b0 key val (matchMask bs t b0 key) else (t, none)) = (t, none) := by
    by_cases hany : anyT (matchMask bs t b0 key)
    · rw [if_pos hany, upsert_existing_of_absent _ habs0]
    · rw [if_neg hany]
  have hup1 : (if anyT (matchMask bs t b1 key) then
      upsert_existing bs t b1 key val (matchMask bs t b1 key) else (t, none)) = (t, none) := by
    by_cases hany : anyT (matchMask bs t b1 key)
    · rw [if_pos hany, upsert_existing_of_absent _ habs1]
    · rw [if_neg hany]
  have g0 := freeCount_le bs t b0
  have g1 := freeCount_le bs t b1
  by_cases hle : bs - countT (freeMask bs t b0) ≤ bs - countT (freeMask bs t b1)
  · -- bucket 0 is preferred and must have a free slot
    have hf0 : 0 < freeCount bs t b0 := by
      rw [countT_freeMask, countT_freeMask] at hle
      rcases Decidable.not_and_iff_or_not.mp hne with h | h <;> omega
    by_cases htm : ∃ i < bs, tagAt t b0 i = tombstoneTag
    · obtain ⟨j, hjlt, htj, heq⟩ := @match_tombstone_of_exists bs t b0 key htm
      refine ⟨b0, j, Or.inl rfl, hjlt, Or.inr htj, ?_⟩
      unfold upsert_phase2
      rw [if_neg (phase2_notfull_cond hne)]
      simp only [hup0, hup1]
      rw [if_pos hle]
      simp only [heq]
      rfl
    · push_neg at htm
      have hem : ∃ i < bs, tagAt t b0 i = emptyTag := by
        obtain ⟨i, hi, hfree⟩ := freeCount_pos hf0
        rcases hfree with he | ht
        · exact ⟨i, hi, he⟩
        · exact absurd ht (htm i hi)
      obtain ⟨j, hjlt, htj, heq⟩ := @match_empty_of_exists bs t b0 key hem
      refine ⟨b0, j, Or.inl rfl, hjlt, Or.inl htj, ?_⟩
      unfold upsert_phase2
      rw [if_neg (phase2_notfull_cond hne)]
      simp only [hup0, hup1]
      rw [if_pos hle]
      simp only [match_tombstone_of_none (tombMask bs t b0) htm, heq]
      rfl
  · -- bucket 1 is strictly preferred and must have a free slot
    have hf1 : 0 < freeCount bs t b1 := by
      rw [countT_freeMask, countT_freeMask] at hle
      omega
    by_cases htm : ∃ i < bs, tagAt t b1 i = tombstoneTag
    · obtain ⟨j, hjlt, htj, heq⟩ := @match_tombstone_of_exists bs t b1 key htm
      refine ⟨b1, j, Or.inr rfl, hjlt, Or.inr htj, ?_⟩
      unfold upsert_phase2
      rw [if_neg (phase2_notfull_cond hne)]
      simp only [hup0, hup1]
      rw [if_neg hle]
      simp only [heq]
      rfl
    · push_neg at htm
      have hem : ∃ i < bs, tagAt t b1 i = emptyTag := by
        obtain ⟨i, hi, hfree⟩ := freeCount_pos hf1
        rcases hfree with he | ht
        · exact ⟨i, hi, he⟩
        · exact absurd ht (htm i hi)
      obtain ⟨j, hjlt, htj, heq⟩ := @match_empty_of_exists bs t b1 key hem
      refine ⟨b1, j, Or.inr rfl, hjlt, Or.inl htj, ?_⟩
      unfold upsert_phase2
      rw [if_neg (phase2_notfull_cond hne)]
      simp only [hup0, hup1]
      rw [if_neg hle]
      simp only [match_tombstone_of_none (tombMask bs t b1) htm, heq]
      rfl

/-! ## The master case analysis for `upsert_replace` -/

/-- The three possible outcomes of a (sequential) `upsert_replace` on a
well-formed table: update the key's unique slot in place, claim a free
(empty or tombstoned) slot of a candidate bucket when the key is absent, or
fail with the table unchanged because both candidate buckets have neither
empty nor tombstoned slots. -/
def UpsertOutcome (bs : Nat) (t : Table) (key val : Nat) (r : Table × Bool) : Prop :=
  (∃ b j, (b = b0k t key ∨ b = b1k t key) ∧ j < bs ∧ (slotAt t b j).key = key ∧
     r = (setValS t b j val, true))
  ∨ (∃ b j, (b = b0k t key ∨ b = b1k t key) ∧ j < bs ∧
     (∀ b' < t.nBuckets, ∀ i' < bs, (slotAt t b' i').key ≠ key) ∧
     (tagAt t b j = emptyTag ∨ tagAt t b j = tombstoneTag) ∧
     (b ≠ b0k t key → 4 * emptyCount bs t (b0k t key) ≤ bs) ∧
     r = (placePair t b j key val, true))
  ∨ (freeCount bs t (b0k t key) = 0 ∧ freeCount bs t (b1k t key) = 0 ∧ r = (t, false))

theorem upsert_internal_cases {bs : Nat} {t : Table} {key val : Nat}
    (hwf : WF bs t) (hk : liveK key) :
    ∃ r, upsert_replace_internal bs t key val (hashKey t key) (b0k t key) = some r ∧
      UpsertOutcome bs t key val r := by
  have hb0lt : b0k t key < t.nBuckets := b0k_lt hwf.nbPos key
  have hb1lt : b1k t key < t.nBuckets := b1k_lt hwf.nbPos key
  by_cases hcond : 4 * (bs - countT (emptyMask bs t (b0k t key))) < 3 * bs
  · -- shortcut phase runs
    by_cases hex : ∃ j, j < bs ∧ (slotAt t (b0k t key) j).key = key
    · obtain ⟨j, hj, hkey⟩ := hex
      have hlivej : liveK (slotAt t (b0k t key) j).key := by rw [hkey]; exact hk
      have huni : ∀ i < bs, (slotAt t (b0k t key) i).key = key → i = j := by
        intro i hi hkeq
        exact (hwf.uniq _ hb0lt j hj _ hb0lt i hi hlivej (hkeq.trans hkey.symm)).2.symm
      have htag : tagAt t (b0k t key) j = get_tag key := by
        have := hwf.alignR _ hb0lt j hj hlivej
        rw [this, hkey]
      refine ⟨(setValS t (b0k t key) j val, true), ?_,
        Or.inl ⟨_, j, Or.inl rfl, hj, hkey, rfl⟩⟩
      unfold upsert_replace_internal
      simp only [@phase1_live bs (b0k t key) key val j t bs hcond hj hkey htag huni]
    · push_neg at hex
      have habs0 : ∀ i < bs, (slotAt t (b0k t key) i).key ≠ key := fun i hi => hex i hi
      have habsAll : ∀ b' < t.nBuckets, ∀ i' < bs, (slotAt t b' i').key ≠ key := by
        intro b' hb' i' hi' hkeq
        have hlive : liveK (slotAt t b' i').key := by rw [hkeq]; exact hk
        rcases hwf.place b' hb' i' hi' hlive with hp | hp
        · rw [hkeq] at hp
          rw [hp] at hkeq
          exact habs0 i' hi' hkeq
        · rw [hkeq] at hp
          by_cases hbb : b1k t key = b0k t key
          · rw [hp, hbb] at hkeq
            exact habs0 i' hi' hkeq
          · have hne : b' ≠ b0k t (slotAt t b' i').key := by rw [hkeq, hp]; exact hbb
            have hbal := hwf.bal b' hb' i' hi' hlive hne
            rw [hkeq] at hbal
            have h1 := countT_emptyMask bs t (b0k t key)
            have h2 := emptyCount_le bs t (b0k t key)
            omega
      obtain ⟨j, hjlt, htagor, heq⟩ := @phase1_claim bs (b0k t key) key val t bs hcond habs0
      refine ⟨(placePair t (b0k t key) j key val, true), ?_,
        Or.inr (Or.inl ⟨_, j, Or.inl rfl, hjlt, habsAll, htagor,
          fun hne => absurd rfl hne, rfl⟩)⟩
      unfold upsert_replace_internal
      simp only [heq]
  · -- shortcut phase skipped
    have he0 : 4 * emptyCount bs t (b0k t key) ≤ bs := by
      have h1 := countT_emptyMask bs t (b0k t key)
      have h2 := emptyCount_le bs t (b0k t key)
      omega
    by_cases hfull : freeCount bs t (b0k t key) = 0 ∧ freeCount bs t (b1k t key) = 0
    · refine ⟨(t, false), ?_, Or.inr (Or.inr ⟨hfull.1, hfull.2, rfl⟩)⟩
      unfold upsert_replace_internal
      simp only [@phase1_exit bs (b0k t key) key val t bs hcond]
      exact @phase2_full bs (b0k t key) (b1k t key) key val t bs hfull.1 hfull.2
    · by_cases hex0 : ∃ j, j < bs ∧ (slotAt t (b0k t key) j).key = key
      · obtain ⟨j, hj, hkey⟩ := hex0
        have hlivej : liveK (slotAt t (b0k t key) j).key := by rw [hkey]; exact hk
        have huni : ∀ i < bs, (slotAt t (b0k t key) i).key = key → i = j := by
          intro i hi hkeq
          exact (hwf.uniq _ hb0lt j hj _ hb0lt i hi hlivej (hkeq.trans hkey.symm)).2.symm
        have htag : tagAt t (b0k t key) j = get_tag key := by
          have := hwf.alignR _ hb0lt j hj hlivej
          rw [this, hkey]
        refine ⟨(setValS t (b0k t key) j val, true), ?_,
          Or.inl ⟨_, j, Or.inl rfl, hj, hkey, rfl⟩⟩
        unfold upsert_replace_internal
        simp only [@phase1_exit bs (b0k t key) key val t bs hcond]
        exact @phase2_live0 bs (b0k t key) (b1k t key) key val j t bs hfull hj hkey htag huni
      · push_neg at hex0
        have habs0 : ∀ i < bs, (slotAt t (b0k t key) i).key ≠ key := fun i hi => hex0 i hi
        by_cases hex1 : ∃ j, j < bs ∧ (slotAt t (b1k t key) j).key = key
        · obtain ⟨j, hj, hkey⟩ := hex1
          have hlivej : liveK (slotAt t (b1k t key) j).key := by rw [hkey]; exact hk
          have huni : ∀ i < bs, (slotAt t (b1k t key) i).key = key → i = j := by
            intro i hi hkeq
            exact (hwf.uniq _ hb1lt j hj _ hb1lt i hi hlivej (hkeq.trans hkey.symm)).2.symm
          have htag : tagAt t (b1k t key) j = get_tag key := by
            have := hwf.alignR _ hb1lt j hj hlivej
            rw [this, hkey]
          refine ⟨(setValS t (b1k t key) j val, true), ?_,
            Or.inl ⟨_, j, Or.inr rfl, hj, hkey, rfl⟩⟩
          unfold upsert_replace_internal
          simp only [@phase1_exit bs (b0k t key) key val t bs hcond]
          exact phase2_live1 bs hfull habs0 hj hkey htag huni
        · push_neg at hex1
          have habs1 : ∀ i < bs, (slotAt t (b1k t key) i).key ≠ key := fun i hi => hex1 i hi
          have habsAll : ∀ b' < t.nBuckets, ∀ i' < bs, (slotAt t b' i').key ≠ key := by
            intro b' hb' i' hi' hkeq
            have hlive : liveK (slotAt t b' i').key := by rw [hkeq]; exact hk
            rcases hwf.place b' hb' i' hi' hlive with hp | hp
            · rw [hkeq] at hp
              rw [hp] at hkeq
              exact habs0 i' hi' hkeq
            · rw [hkeq] at hp
              rw [hp] at hkeq
              exact habs1 i' hi' hkeq
          obtain ⟨b, j, hbor, hjlt, htagor, heq⟩ := @phase2_claim bs (b0k t key) (b1k t key) key val t bs hfull habs0 habs1
          refine ⟨(placePair t b j key val, true), ?_,
            Or.inr (Or.inl ⟨b, j, hbor, hjlt, habsAll, htagor, fun _ => he0, rfl⟩)⟩
          unfold upsert_replace_internal
          simp only [@phase1_exit bs (b0k t key) key val t bs hcond]
          exact heq

/-- Locking a bucket does not affect any invariant (the lock table is not
consulted by the data-path invariants). -/
theorem WF_lockB {bs : Nat} {t : Table} (hwf : WF bs t) (b : Nat) : WF bs (lockB t b) :=
  { nbPos := hwf.nbPos
    bLen := hwf.bLen
    mLen := hwf.mLen
    bEach := hwf.bEach
    mEach := hwf.mEach
    alignE := hwf.alignE
    alignT := hwf.alignT
    alignR := hwf.alignR
    keyW := hwf.keyW
    place := hwf.place
    uniq := hwf.uniq
    bal := hwf.bal }

/-- Acquiring and then releasing a clear lock bit restores the state. -/
theorem unlockB_lockB {x : Table} {n b : Nat} (hx : x.locks = List.replicate n false) :
    unlockB (lockB x b) b = x := by
  unfold unlockB lockB
  simp only
  rw [List.set_set, hx, set_replicate_false, ← hx]

theorem setValS_lockB (t : Table) (b0 b j v : Nat) :
    setValS (lockB t b0) b j v = lockB (setValS t b j v) b0 := rfl

theorem placePair_lockB (t : Table) (b0 b j k v : Nat) :
    placePair (lockB t b0) b j k v = lockB (placePair t b j k v) b0 := rfl

@[simp] theorem placePair_locks (t : Table) (b j k v : Nat) :
    (placePair t b j k v).locks = t.locks := rfl

@[simp] theorem eraseAt_locks (t : Table) (b j : Nat) :
    (eraseAt t b j).locks = t.locks := rfl

theorem upsert_replace_cases {bs : Nat} {t : Table} {key val : Nat}
    (hwf : WF bs t) (hl : t.locks = List.replicate t.nBuckets false) (hk : liveK key) :
    ∃ r, upsert_replace bs t key val = some r ∧ UpsertOutcome bs t key val r := by
  obtain ⟨⟨t', rb⟩, hr, ho⟩ :=
    @upsert_internal_cases bs (lockB t (b0k t key)) key val (WF_lockB hwf _) hk
  have hr' : upsert_replace_internal bs (lockB t (first_bucket t (hashKey t key))) key val
      (hashKey t key) (first_bucket t (hashKey t key)) = some (t', rb) := hr
  rcases ho with ⟨b, j, hbor, hj, hkey, hreq⟩ | ⟨b, j, hbor, hj, habs, htag, hbal, hreq⟩ |
    ⟨h0, h1, hreq⟩
  · -- update in place
    obtain ⟨ht', hrb⟩ := Prod.mk.injEq .. ▸ hreq
    refine ⟨(setValS t b j val, true), ?_, Or.inl ⟨b, j, hbor, hj, hkey, rfl⟩⟩
    unfold upsert_replace
    simp only [hr']
    rw [ht', hrb, setValS_lockB]
    exact congrArg (fun y => some (y, true)) (unlockB_lockB (x := setValS t b j val)
      (b := b0k t key) (n := t.nBuckets) (by rw [setValS_locks, hl]))
  · -- fresh claim
    obtain ⟨ht', hrb⟩ := Prod.mk.injEq .. ▸ hreq
    refine ⟨(placePair t b j key val, true), ?_,
      Or.inr (Or.inl ⟨b, j, hbor, hj, habs, htag, hbal, rfl⟩)⟩
    unfold upsert_replace
    simp only [hr']
    rw [ht', hrb, placePair_lockB]
    exact congrArg (fun y => some (y, true)) (unlockB_lockB (x := placePair t b j key val)
      (b := b0k t key) (n := t.nBuckets) (by rw [placePair_locks, hl]))
  · -- table full for this key
    obtain ⟨ht', hrb⟩ := Prod.mk.injEq .. ▸ hreq
    refine ⟨(t, false), ?_, Or.inr (Or.inr ⟨h0, h1, rfl⟩)⟩
    unfold upsert_replace
    simp only [hr']
    rw [ht', hrb]
    exact congrArg (fun y => some (y, false)) (unlockB_lockB (x := t)
      (b := b0k t key) (n := t.nBuckets) hl)

/-- The two outcomes of a (sequential) `remove` on a well-formed table. -/
def RemoveOutcome (bs : Nat) (t : Table) (key : Nat) (r : Table × Bool) : Prop :=
  (∃ b j, (b = b0k t key ∨ b = b1k t key) ∧ b < t.nBuckets ∧ j < bs ∧
     (slotAt t b j).key = key ∧ r = (eraseAt t b j, true))
  ∨ ((∀ b' < t.nBuckets, ∀ i' < bs, (slotAt t b' i').key ≠ key) ∧ r = (t, false))

theorem remove_cases {bs : Nat} {t : Table} {key : Nat}
    (hwf : WF bs t) (hl : t.locks = List.replicate t.nBuckets false) (hk : liveK key) :
    RemoveOutcome bs t key (removeOp bs t key) := by
  have hb0lt : b0k t key < t.nBuckets := b0k_lt hwf.nbPos key
  have hb1lt : b1k t key < t.nBuckets := b1k_lt hwf.nbPos key
  by_cases hex0 : ∃ j, j < bs ∧ (slotAt t (b0k t key) j).key = key
  · obtain ⟨j, hj, hkey⟩ := hex0
    have hlivej : liveK (slotAt t (b0k t key) j).key := by rw [hkey]; exact hk
    have huni : ∀ i < bs, (slotAt t (b0k t key) i).key = key → i = j := by
      intro i hi hkeq
      exact (hwf.uniq _ hb0lt j hj _ hb0lt i hi hlivej (hkeq.trans hkey.symm)).2.symm
    have htag : tagAt t (b0k t key) j = get_tag key := by
      have := hwf.alignR _ hb0lt j hj hlivej
      rw [this, hkey]
    have herase : erase_reference bs (lockB t (first_bucket t (hashKey t key)))
        (first_bucket t (hashKey t key)) key
        (matchMask bs (lockB t (first_bucket t (hashKey t key)))
          (first_bucket t (hashKey t key)) key)
        = (setKeyS (lockB t (b0k t key)) (b0k t key) j TOMBSTONE_KEY, some j) :=
      erase_reference_of_live (t := lockB t (b0k t key)) hj hkey htag huni
    refine Or.inl ⟨b0k t key, j, Or.inl rfl, hb0lt, hj, hkey, ?_⟩
    unfold removeOp
    simp only [herase]
    exact congrArg (fun y => (y, true)) (unlockB_lockB (x := eraseAt t (b0k t key) j)
      (b := b0k t key) (n := t.nBuckets) (by rw [eraseAt_locks, hl]))
  · push_neg at hex0
    have habs0 : ∀ i < bs, (slotAt t (b0k t key) i).key ≠ key := fun i hi => hex0 i hi
    have herase0 : erase_reference bs (lockB t (first_bucket t (hashKey t key)))
        (first_bucket t (hashKey t key)) key
        (matchMask bs (lockB t (first_bucket t (hashKey t key)))
          (first_bucket t (hashKey t key)) key)
        = (lockB t (b0k t key), none) :=
      erase_reference_of_absent (t := lockB t (b0k t key)) _ habs0
    by_cases hex1 : ∃ j, j < bs ∧ (slotAt t (b1k t key) j).key = key
    · obtain ⟨j, hj, hkey⟩ := hex1
      have hlivej : liveK (slotAt t (b1k t key) j).key := by rw [hkey]; exact hk
      have huni : ∀ i < bs, (slotAt t (b1k t key) i).key = key → i = j := by
        intro i hi hkeq
        exact (hwf.uniq _ hb1lt j hj _ hb1lt i hi hlivej (hkeq.trans hkey.symm)).2.symm
      have htag : tagAt t (b1k t key) j = get_tag key := by
        have := hwf.alignR _ hb1lt j hj hlivej
        rw [this, hkey]
      have herase1 : erase_reference bs (lockB t (b0k t key))
          (second_bucket (lockB t (b0k t key)) (hashKey t key)) key
          (matchMask bs (lockB t (b0k t key))
            (second_bucket (lockB t (b0k t key)) (hashKey t key)) key)
          = (setKeyS (lockB t (b0k t key)) (b1k t key) j TOMBSTONE_KEY, some j) :=
        erase_reference_of_live (t := lockB t (b0k t key)) (b := b1k t key) hj hkey htag huni
      refine Or.inl ⟨b1k t key, j, Or.inr rfl, hb1lt, hj, hkey, ?_⟩
      unfold removeOp
      simp only [herase0, herase1]
      exact congrArg (fun y => (y, true)) (unlockB_lockB (x := eraseAt t (b1k t key) j)
        (b := b0k t key) (n := t.nBuckets) (by rw [eraseAt_locks, hl]))
    · push_neg at hex1
      have habs1 : ∀ i < bs, (slotAt t (b1k t key) i).key ≠ key := fun i hi => hex1 i hi
      have habsAll : ∀ b' < t.nBuckets, ∀ i' < bs, (slotAt t b' i').key ≠ key := by
        intro b' hb' i' hi' hkeq
        have hlive : liveK (slotAt t b' i').key := by rw [hkeq]; exact hk
        rcases hwf.place b' hb' i' hi' hlive with hp | hp
        · rw [hkeq] at hp
          rw [hp] at hkeq
          exact habs0 i' hi' hkeq
        · rw [hkeq] at hp
          rw [hp] at hkeq
          exact habs1 i' hi' hkeq
      have herase1 : erase_reference bs (lockB t (b0k t key))
          (second_bucket (lockB t (b0k t key)) (hashKey t key)) key
          (matchMask bs (lockB t (b0k t key))
            (second_bucket (lockB t (b0k t key)) (hashKey t key)) key)
          = (lockB t (b0k t key), none) :=
        erase_reference_of_absent (t := lockB t (b0k t key)) (b := b1k t key) _ habs1
      refine Or.inr ⟨habsAll, ?_⟩
      unfold removeOp
      simp only [herase0, herase1]
      exact congrArg (fun y => (y, false)) (unlockB_lockB (x := t)
        (b := b0k t key) (n := t.nBuckets) hl)

/-! ## Characterisation of `find_with_reference` -/

theorem find_state (bs : Nat) (t : Table) (key : Nat) :
    (find_with_reference bs t key).1 = t := by
  unfold find_with_reference
  rcases hq : query_md_and_bucket bs t (first_bucket t (hashKey t key)) key with _ | v <;>
    simp [hq]

theorem find_no_lock_state (bs : Nat) (t : Table) (key : Nat) :
    (find_with_reference_no_lock bs t key).1 = t := by
  unfold find_with_reference_no_lock
  rcases hq : query_md_and_bucket bs t (first_bucket t (hashKey t key)) key with _ | v <;>
    simp [hq]

theorem find_of_absent {bs : Nat} {t : Table} {key : Nat}
    (habs : ∀ b' < t.nBuckets, ∀ i' < bs, (slotAt t b' i').key ≠ key)
    (hnb : 0 < t.nBuckets) :
    (find_with_reference bs t key).2 = none := by
  have h0 : query_md_and_bucket bs t (first_bucket t (hashKey t key)) key = none :=
    query_md_of_absent fun i hi => habs _ (b0k_lt hnb key) i hi
  have h1 : query_md_and_bucket bs t (second_bucket t (hashKey t key)) key = none :=
    query_md_of_absent fun i hi => habs _ (b1k_lt hnb key) i hi
  unfold find_with_reference
  simp only [h0, h1]

theorem find_of_live {bs : Nat} {t : Table} {key : Nat} {b j : Nat}
    (hwf : WF bs t) (hk : liveK key) (hb : b < t.nBuckets) (hj : j < bs)
    (hkey : (slotAt t b j).key = key) :
    (find_with_reference bs t key).2 = some (slotAt t b j).val := by
  have hlivej : liveK (slotAt t b j).key := by rw [hkey]; exact hk
  have hb0lt : b0k t key < t.nBuckets := b0k_lt hwf.nbPos key
  have hb1lt : b1k t key < t.nBuckets := b1k_lt hwf.nbPos key
  have hcand : b = b0k t key ∨ b = b1k t key := by
    have := hwf.place b hb j hj hlivej
    rw [hkey] at this
    exact this
  have htag : tagAt t b j = get_tag key := by
    have := hwf.alignR b hb j hj hlivej
    rw [this, hkey]
  rcases hcand with rfl | hcand1
  · -- resident in the primary bucket: the first probe hits
    have huni : ∀ i < bs, (slotAt t (b0k t key) i).key = key → i = j := by
      intro i hi hkeq
      exact (hwf.uniq _ hb0lt j hj _ hb0lt i hi hlivej (hkeq.trans hkey.symm)).2.symm
    have h0 : query_md_and_bucket bs t (first_bucket t (hashKey t key)) key =
        some (slotAt t (b0k t key) j).val :=
      query_md_of_live hj hkey htag huni
    unfold find_with_reference
    simp only [h0]
  · by_cases hbb : b = b0k t key
    · -- candidate buckets coincide
      subst hbb
      have huni : ∀ i < bs, (slotAt t (b0k t key) i).key = key → i = j := by
        intro i hi hkeq
        exact (hwf.uniq _ hb0lt j hj _ hb0lt i hi hlivej (hkeq.trans hkey.symm)).2.symm
      have h0 : query_md_and_bucket bs t (first_bucket t (hashKey t key)) key =
          some (slotAt t (b0k t key) j).val :=
        query_md_of_live hj hkey htag huni
      unfold find_with_reference
      simp only [h0]
    · -- resident only in the secondary bucket: first probe misses, second hits
      have habs0 : ∀ i < bs, (slotAt t (b0k t key) i).key ≠ key := by
        intro i hi hkeq
        exact hbb (hwf.uniq b hb j hj _ hb0lt i hi hlivej (hkeq.trans hkey.symm)).1
      have h0 : query_md_and_bucket bs t (first_bucket t (hashKey t key)) key = none :=
        query_md_of_absent habs0
      have hunib : ∀ i < bs, (slotAt t b i).key = key → i = j := by
        intro i hi hkeq
        exact (hwf.uniq b hb j hj b hb i hi hlivej (hkeq.trans hkey.symm)).2.symm
      have h1 : query_md_and_bucket bs t (second_bucket t (hashKey t key)) key =
          some (slotAt t (b1k t key) j).val := by
        have hq := query_md_of_live hj hkey htag hunib
        rw [hcand1] at hq
        exact hq
      unfold find_with_reference
      simp only [h0, h1]
      rw [← hcand1]

/-! ## Preservation of the invariant -/

@[simp] theorem b0k_setValS (t : Table) (b j v k : Nat) : b0k (setValS t b j v) k = b0k t k := rfl

@[simp] theorem b1k_setValS (t : Table) (b j v k : Nat) : b1k (setValS t b j v) k = b1k t k := rfl

@[simp] theorem b0k_setCell (t : Table) (b j tg : Nat) (s : Slot) (k : Nat) :
    b0k (setCell t b j tg s) k = b0k t k := rfl

@[simp] theorem b1k_setCell (t : Table) (b j tg : Nat) (s : Slot) (k : Nat) :
    b1k (setCell t b j tg s) k = b1k t k := rfl

/-- A value-only store changes no key and no tag. -/
theorem slotKey_setValS {t : Table} {b j : Nat} (hb : b < t.buckets.length)
    (hj : j < (t.buckets.getD b []).length) (v : Nat) (b' i' : Nat) :
    (slotAt (setValS t b j v) b' i').key = (slotAt t b' i').key := by
  by_cases hc : b = b' ∧ j = i'
  · obtain ⟨rfl, rfl⟩ := hc
    rw [slotAt_setValS_self hb hj]
  · rw [slotAt_setValS_ne (by tauto)]

theorem WF_setValS {bs : Nat} {t : Table} {b j v : Nat}
    (hwf : WF bs t) (hb : b < t.nBuckets) (hj : j < bs) :
    WF bs (setValS t b j v) := by
  have hbl : b < t.buckets.length := by rw [hwf.bLen]; exact hb
  have hjl : j < (t.buckets.getD b []).length := by rw [hwf.bEach b hb]; exact hj
  have hkeys := slotKey_setValS hbl hjl v
  have hlen : ∀ b' < t.nBuckets, ((setValS t b j v).buckets.getD b' []).length = bs := by
    intro b' hb'
    unfold setValS setSlotS
    simp only
    by_cases hc : b = b'
    · subst hc
      rw [getD_set_self hbl, List.length_set]
      exact hwf.bEach b hb
    · rw [getD_set_ne hc]
      exact hwf.bEach b' hb'
  refine ⟨hwf.nbPos, ?_, hwf.mLen, hlen, hwf.mEach, ?_, ?_, ?_, ?_, ?_, ?_, ?_⟩
  · rw [setValS_buckets_length, setValS_nBuckets, hwf.bLen]
  · intro b' hb' i' hi'
    rw [tagAt_setValS, hkeys]
    exact hwf.alignE b' hb' i' hi'
  · intro b' hb' i' hi'
    rw [tagAt_setValS, hkeys]
    exact hwf.alignT b' hb' i' hi'
  · intro b' hb' i' hi'
    rw [tagAt_setValS, hkeys]
    exact hwf.alignR b' hb' i' hi'
  · intro b' hb' i' hi'
    rw [hkeys]
    exact hwf.keyW b' hb' i' hi'
  · intro b' hb' i' hi'
    rw [hkeys, b0k_setValS, b1k_setValS]
    exact hwf.place b' hb' i' hi'
  · intro b' hb' i' hi' b'' hb'' i'' hi''
    rw [hkeys, hkeys]
    exact hwf.uniq b' hb' i' hi' b'' hb'' i'' hi''
  · intro b' hb' i' hi'
    rw [hkeys, b0k_setValS]
    intro hlive hne
    have := hwf.bal b' hb' i' hi' hlive hne
    rw [emptyCount_setValS]
    exact this

/-- Bucket lengths after a cell update. -/
theorem setCell_lenB {bs : Nat} {t : Table} {b j tg : Nat} {s : Slot}
    (hwf : WF bs t) (hb : b < t.nBuckets) :
    ∀ b' < t.nBuckets, (((setCell t b j tg s).buckets).getD b' []).length = bs := by
  intro b' hb'
  have hbl : b < t.buckets.length := by rw [hwf.bLen]; exact hb
  unfold setCell
  simp only
  by_cases hc : b = b'
  · subst hc
    rw [getD_set_self hbl, List.length_set]
    exact hwf.bEach b hb
  · rw [getD_set_ne hc]
    exact hwf.bEach b' hb'

theorem setCell_lenM {bs : Nat} {t : Table} {b j tg : Nat} {s : Slot}
    (hwf : WF bs t) (hb : b < t.nBuckets) :
    ∀ b' < t.nBuckets, (((setCell t b j tg s).md).getD b' []).length = bs := by
  intro b' hb'
  have hml : b < t.md.length := by rw [hwf.mLen]; exact hb
  unfold setCell
  simp only
  by_cases hc : b = b'
  · subst hc
    rw [getD_set_self hml, List.length_set]
    exact hwf.mEach b hb
  · rw [getD_set_ne hc]
    exact hwf.mEach b' hb'

theorem slot_mk_key (k v : Nat) : (Slot.mk k v).key = k := rfl

theorem WF_placePair {bs : Nat} {t : Table} {b j key val : Nat}
    (hwf : WF bs t) (hb : b < t.nBuckets) (hj : j < bs) (hk : liveK key)
    (hcand : b = b0k t key ∨ b = b1k t key)
    (habs : ∀ b' < t.nBuckets, ∀ i' < bs, (slotAt t b' i').key ≠ key)
    (hbal : b ≠ b0k t key → 4 * emptyCount bs t (b0k t key) ≤ bs) :
    WF bs (placePair t b j key val) := by
  rw [placePair_eq_setCell]
  have hbl : b < t.buckets.length := by rw [hwf.bLen]; exact hb
  have hjl : j < (t.buckets.getD b []).length := by rw [hwf.bEach b hb]; exact hj
  have hml : b < t.md.length := by rw [hwf.mLen]; exact hb
  have hjm : j < (t.md.getD b []).length := by rw [hwf.mEach b hb]; exact hj
  have hts := tagAt_setCell_self hml hjm (get_tag key) (⟨key, val⟩ : Slot)
  have hss := slotAt_setCell_self hbl hjl (get_tag key) (⟨key, val⟩ : Slot)
  refine ⟨hwf.nbPos, ?_, ?_, setCell_lenB hwf hb, setCell_lenM hwf hb,
    ?_, ?_, ?_, ?_, ?_, ?_, ?_⟩
  · rw [setCell_buckets_length, setCell_nBuckets]
    exact hwf.bLen
  · rw [setCell_md_length, setCell_nBuckets]
    exact hwf.mLen
  · -- alignE
    intro b' hb' i' hi'
    by_cases hc : b = b' ∧ j = i'
    · obtain ⟨rfl, rfl⟩ := hc
      rw [hts, hss]
      exact ⟨fun h => absurd h (get_tag_spec key).1, fun h => absurd h hk.2.1⟩
    · rw [tagAt_setCell_ne (by tauto), slotAt_setCell_ne (by tauto)]
      exact hwf.alignE b' hb' i' hi'
  · -- alignT
    intro b' hb' i' hi'
    by_cases hc : b = b' ∧ j = i'
    · obtain ⟨rfl, rfl⟩ := hc
      rw [hts, hss]
      exact ⟨fun h => absurd h (get_tag_spec key).2.1, fun h => absurd h hk.2.2.1⟩
    · rw [tagAt_setCell_ne (by tauto), slotAt_setCell_ne (by tauto)]
      exact hwf.alignT b' hb' i' hi'
  · -- alignR
    intro b' hb' i' hi'
    by_cases hc : b = b' ∧ j = i'
    · obtain ⟨rfl, rfl⟩ := hc
      rw [hts, hss]
      intro _
      rfl
    · rw [tagAt_setCell_ne (by tauto), slotAt_setCell_ne (by tauto)]
      exact hwf.alignR b' hb' i' hi'
  · -- keyW
    intro b' hb' i' hi'
    by_cases hc : b = b' ∧ j = i'
    · obtain ⟨rfl, rfl⟩ := hc
      rw [hss]
      exact ⟨hk.1, hk.2.2.2⟩
    · rw [slotAt_setCell_ne (by tauto)]
      exact hwf.keyW b' hb' i' hi'
  · -- place
    intro b' hb' i' hi'
    by_cases hc : b = b' ∧ j = i'
    · obtain ⟨rfl, rfl⟩ := hc
      rw [hss, b0k_setCell, b1k_setCell]
      intro _
      exact hcand
    · rw [slotAt_setCell_ne (by tauto), b0k_setCell, b1k_setCell]
      exact hwf.place b' hb' i' hi'
  · -- uniq
    intro b' hb' i' hi' b'' hb'' i'' hi''
    by_cases hc : b = b' ∧ j = i'
    · obtain ⟨rfl, rfl⟩ := hc
      rw [hss]
      by_cases hc2 : b = b'' ∧ j = i''
      · obtain ⟨rfl, rfl⟩ := hc2
        exact fun _ _ => ⟨rfl, rfl⟩
      · rw [slotAt_setCell_ne (by tauto)]
        intro _ heq
        exact absurd heq (habs b'' hb'' i'' hi'')
    · rw [slotAt_setCell_ne (by tauto)]
      by_cases hc2 : b = b'' ∧ j = i''
      · obtain ⟨rfl, rfl⟩ := hc2
        rw [hss]
        intro hlive heq
        exact absurd heq.symm (habs b' hb' i' hi')
      · rw [slotAt_setCell_ne (by tauto)]
        exact hwf.uniq b' hb' i' hi' b'' hb'' i'' hi''
  · -- bal
    intro b' hb' i' hi'
    by_cases hc : b = b' ∧ j = i'
    · obtain ⟨rfl, rfl⟩ := hc
      rw [hss, slot_mk_key, b0k_setCell]
      intro _ hne
      have h1 := hbal hne
      have h2 := emptyCount_setCell_le (s := (⟨key, val⟩ : Slot)) bs hml hjm
        (get_tag_spec key).1 (b0k t key)
      omega
    · rw [slotAt_setCell_ne (by tauto), b0k_setCell]
      intro hlive hne
      have h1 := hwf.bal b' hb' i' hi' hlive hne
      have h2 := emptyCount_setCell_le (s := (⟨key, val⟩ : Slot)) bs hml hjm
        (get_tag_spec key).1 (b0k t (slotAt t b' i').key)
      omega

theorem WF_eraseAt {bs : Nat} {t : Table} {b j : Nat}
    (hwf : WF bs t) (hb : b < t.nBuckets) (hj : j < bs)
    (hlivej : liveK (slotAt t b j).key) :
    WF bs (eraseAt t b j) := by
  rw [eraseAt_eq_setCell]
  have hbl : b < t.buckets.length := by rw [hwf.bLen]; exact hb
  have hjl : j < (t.buckets.getD b []).length := by rw [hwf.bEach b hb]; exact hj
  have hml : b < t.md.length := by rw [hwf.mLen]; exact hb
  have hjm : j < (t.md.getD b []).length := by rw [hwf.mEach b hb]; exact hj
  have hts := tagAt_setCell_self hml hjm tombstoneTag
    (⟨TOMBSTONE_KEY, (slotAt t b j).val⟩ : Slot)
  have hss := slotAt_setCell_self hbl hjl tombstoneTag
    (⟨TOMBSTONE_KEY, (slotAt t b j).val⟩ : Slot)
  have hoaligned : tagAt t b j ≠ emptyTag := by
    have := hwf.alignR b hb j hj hlivej
    rw [this]
    exact (get_tag_spec _).1
  refine ⟨hwf.nbPos, ?_, ?_, setCell_lenB hwf hb, setCell_lenM hwf hb,
    ?_, ?_, ?_, ?_, ?_, ?_, ?_⟩
  · rw [setCell_buckets_length, setCell_nBuckets]
    exact hwf.bLen
  · rw [setCell_md_length, setCell_nBuckets]
    exact hwf.mLen
  · -- alignE
    intro b' hb' i' hi'
    by_cases hc : b = b' ∧ j = i'
    · obtain ⟨rfl, rfl⟩ := hc
      rw [hts, hss]
      exact ⟨fun h => absurd h (by rw [emptyTag_eq, tombstoneTag_eq]; omega),
        fun h => absurd h (fun hh => sentinels_distinct.1 hh.symm)⟩
    · rw [tagAt_setCell_ne (by tauto), slotAt_setCell_ne (by tauto)]
      exact hwf.alignE b' hb' i' hi'
  · -- alignT
    intro b' hb' i' hi'
    by_cases hc : b = b' ∧ j = i'
    · obtain ⟨rfl, rfl⟩ := hc
      rw [hts, hss]
      exact iff_of_true rfl rfl
    · rw [tagAt_setCell_ne (by tauto), slotAt_setCell_ne (by tauto)]
      exact hwf.alignT b' hb' i' hi'
  · -- alignR
    intro b' hb' i' hi'
    by_cases hc : b = b' ∧ j = i'
    · obtain ⟨rfl, rfl⟩ := hc
      rw [hss]
      intro hlive
      exact absurd rfl hlive.2.2.1
    · rw [tagAt_setCell_ne (by tauto), slotAt_setCell_ne (by tauto)]
      exact hwf.alignR b' hb' i' hi'
  · -- keyW
    intro b' hb' i' hi'
    by_cases hc : b = b' ∧ j = i'
    · obtain ⟨rfl, rfl⟩ := hc
      rw [hss]
      exact ⟨(by decide : TOMBSTONE_KEY < U64), sentinels_distinct.2.2⟩
    · rw [slotAt_setCell_ne (by tauto)]
      exact hwf.keyW b' hb' i' hi'
  · -- place
    intro b' hb' i' hi'
    by_cases hc : b = b' ∧ j = i'
    · obtain ⟨rfl, rfl⟩ := hc
      rw [hss]
      intro hlive
      exact absurd rfl hlive.2.2.1
    · rw [slotAt_setCell_ne (by tauto), b0k_setCell, b1k_setCell]
      exact hwf.place b' hb' i' hi'
  · -- uniq
    intro b' hb' i' hi' b'' hb'' i'' hi''
    by_cases hc : b = b' ∧ j = i'
    · obtain ⟨rfl, rfl⟩ := hc
      rw [hss]
      intro hlive
      exact absurd rfl hlive.2.2.1
    · rw [slotAt_setCell_ne (by tauto)]
      by_cases hc2 : b = b'' ∧ j = i''
      · obtain ⟨rfl, rfl⟩ := hc2
        rw [hss]
        intro hlive heq
        exact absurd heq.symm hlive.2.2.1
      · rw [slotAt_setCell_ne (by tauto)]
        exact hwf.uniq b' hb' i' hi' b'' hb'' i'' hi''
  · -- bal
    intro b' hb' i' hi'
    by_cases hc : b = b' ∧ j = i'
    · obtain ⟨rfl, rfl⟩ := hc
      rw [hss]
      intro hlive
      exact absurd rfl hlive.2.2.1
    · rw [slotAt_setCell_ne (by tauto), b0k_setCell]
      intro hlive hne
      have h1 := hwf.bal b' hb' i' hi' hlive hne
      have htne : tombstoneTag ≠ emptyTag := by decide
      have h2 := emptyCount_setCell_eq (s := (⟨TOMBSTONE_KEY, (slotAt t b j).val⟩ : Slot))
        bs hml hjm ⟨fun h => absurd h htne, fun h => absurd h hoaligned⟩
        (b0k t (slotAt t b' i').key)
      omega

/-! ## The invariant holds in every reachable state -/

theorem WF_init (bs capacity seed : Nat) :
    WF bs (initTable bs capacity seed) ∧
      (initTable bs capacity seed).locks =
        List.replicate (initTable bs capacity seed).nBuckets false := by
  set nb := n_buckets_of capacity bs with hnb
  have htag : ∀ b i : Nat, tagAt (initTable bs capacity seed) b i = emptyTag := by
    intro b i
    unfold tagAt initTable
    simp only
    rw [getD_replicate]
    by_cases hb : b < nb
    · rw [if_pos hb, getD_replicate]
      by_cases hi : i < bs
      · rw [if_pos hi]
      · rw [if_neg hi]
        rfl
    · rw [if_neg hb]
      rfl
  have hslot : ∀ b i : Nat, slotAt (initTable bs capacity seed) b i = ⟨EMPTY_KEY, 0⟩ := by
    intro b i
    unfold slotAt initTable
    simp only
    rw [getD_replicate]
    by_cases hb : b < nb
    · rw [if_pos hb, getD_replicate]
      by_cases hi : i < bs
      · rw [if_pos hi]
      · rw [if_neg hi]
        rfl
    · rw [if_neg hb]
      rfl
  have hnotlive : ∀ b i : Nat, ¬ liveK (slotAt (initTable bs capacity seed) b i).key := by
    intro b i hlive
    rw [hslot] at hlive
    exact hlive.2.1 rfl
  constructor
  · refine ⟨Nat.succ_pos _, ?_, ?_, ?_, ?_, ?_, ?_, ?_, ?_, ?_, ?_, ?_⟩
    · exact List.length_replicate ..
    · exact List.length_replicate ..
    · intro b hb
      unfold initTable
      simp only
      rw [getD_replicate, if_pos (show b < n_buckets_of capacity bs from hb)]
      exact List.length_replicate ..
    · intro b hb
      unfold initTable
      simp only
      rw [getD_replicate, if_pos (show b < n_buckets_of capacity bs from hb)]
      exact List.length_replicate ..
    · intro b _ i _
      rw [htag, hslot, slot_mk_key]
      exact iff_of_true rfl rfl
    · intro b _ i _
      rw [htag, hslot, slot_mk_key]
      constructor
      · intro h
        exact absurd h (by decide)
      · intro h
        exact absurd h sentinels_distinct.1
    · intro b _ i _ hlive
      exact absurd hlive (hnotlive b i)
    · intro b _ i _
      rw [hslot, slot_mk_key]
      exact ⟨by decide, fun h => sentinels_distinct.2.1 h⟩
    · intro b _ i _ hlive
      exact absurd hlive (hnotlive b i)
    · intro b _ i _ b' _ i' _ hlive
      exact absurd hlive (hnotlive b i)
    · intro b _ i _ hlive
      exact absurd hlive (hnotlive b i)
  · rfl

theorem Reachable_WF {bs : Nat} {t : Table} (h : Reachable bs t) :
    WF bs t ∧ t.locks = List.replicate t.nBuckets false := by
  induction h with
  | init capacity seed => exact WF_init bs capacity seed
  | @upsert t0 t' r key val _ hk heq ih =>
    obtain ⟨hwf, hl⟩ := ih
    obtain ⟨r0, hr0, ho⟩ := @upsert_replace_cases bs t0 key val hwf hl hk
    have hr0' : r0 = (t', r) := Option.some.inj (hr0.symm.trans heq)
    rcases ho with ⟨b, j, hbor, hj, hkey, hreq⟩ | ⟨b, j, hbor, hj, habs, htag, hbal, hreq⟩ |
      ⟨h0, h1, hreq⟩
    · have hb : b < t0.nBuckets := by
        rcases hbor with rfl | rfl
        · exact b0k_lt hwf.nbPos key
        · exact b1k_lt hwf.nbPos key
      have ht' : t' = setValS t0 b j val := by
        rw [hr0'] at hreq
        exact (Prod.mk.injEq .. ▸ hreq).1
      subst ht'
      exact ⟨WF_setValS hwf hb hj, by rw [setValS_locks, setValS_nBuckets, hl]⟩
    · have hb : b < t0.nBuckets := by
        rcases hbor with rfl | rfl
        · exact b0k_lt hwf.nbPos key
        · exact b1k_lt hwf.nbPos key
      have ht' : t' = placePair t0 b j key val := by
        rw [hr0'] at hreq
        exact (Prod.mk.injEq .. ▸ hreq).1
      subst ht'
      have hbal' : b ≠ b0k t0 key → 4 * emptyCount bs t0 (b0k t0 key) ≤ bs := hbal
      refine ⟨WF_placePair hwf hb hj hk hbor habs hbal', ?_⟩
      rw [placePair_eq_setCell, setCell_locks, setCell_nBuckets, hl]
    · have ht' : t' = t0 := by
        rw [hr0'] at hreq
        exact (Prod.mk.injEq .. ▸ hreq).1
      subst ht'
      exact ⟨hwf, hl⟩
  | @remove t0 t' r key _ hk heq ih =>
    obtain ⟨hwf, hl⟩ := ih
    have ho := @remove_cases bs t0 key hwf hl hk
    rw [heq] at ho
    rcases ho with ⟨b, j, hbor, hb, hj, hkey, hreq⟩ | ⟨habs, hreq⟩
    · have ht' : t' = eraseAt t0 b j := (Prod.mk.injEq .. ▸ hreq).1
      subst ht'
      have hlivej : liveK (slotAt t0 b j).key := by rw [hkey]; exact hk
      refine ⟨WF_eraseAt hwf hb hj hlivej, ?_⟩
      rw [eraseAt_eq_setCell, setCell_locks, setCell_nBuckets, hl]
    · have ht' : t' = t0 := (Prod.mk.injEq .. ▸ hreq).1
      subst ht'
      exact ⟨hwf, hl⟩
  | @query t0 key _ ih =>
    rw [find_state]
    exact ih

/-! ## Corollaries of the master case analysis -/

theorem emptyCount_le_freeCount (bs : Nat) (t : Table) (b : Nat) :
    emptyCount bs t b ≤ freeCount bs t b := by
  unfold emptyCount freeCount
  exact List.countP_mono_left fun i _ h => by
    simp only [Bool.or_eq_true]
    exact Or.inl h

theorem freeCount_pos_of_tag {bs : Nat} {t : Table} {b i : Nat} (hi : i < bs)
    (h : tagAt t b i = emptyTag ∨ tagAt t b i = tombstoneTag) :
    0 < freeCount bs t b := by
  unfold freeCount
  refine List.countP_pos_iff.mpr ⟨i, List.mem_range.mpr hi, ?_⟩
  simp only [Bool.or_eq_true, beq_iff_eq]
  exact h

/-- A successful upsert leaves `(key, val)` in a candidate-bucket slot of the
resulting well-formed table. -/
theorem upsert_true_live {bs : Nat} {t t' : Table} {key val : Nat}
    (hwf : WF bs t) (hl : t.locks = List.replicate t.nBuckets false) (hk : liveK key)
    (heq : upsert_replace bs t key val = some (t', true)) :
    ∃ b j, (b = b0k t key ∨ b = b1k t key) ∧ b < t.nBuckets ∧ j < bs ∧
      slotAt t' b j = ⟨key, val⟩ ∧ WF bs t' ∧
      t'.nBuckets = t.nBuckets ∧ t'.seed = t.seed ∧
      t'.locks = List.replicate t'.nBuckets false := by
  obtain ⟨r0, hr0, ho⟩ := @upsert_replace_cases bs t key val hwf hl hk
  have hr0' : r0 = (t', true) := Option.some.inj (hr0.symm.trans heq)
  rcases ho with ⟨b, j, hbor, hj, hkey, hreq⟩ | ⟨b, j, hbor, hj, habs, htag, hbal, hreq⟩ |
    ⟨h0, h1, hreq⟩
  · have hb : b < t.nBuckets := by
      rcases hbor with rfl | rfl
      · exact b0k_lt hwf.nbPos key
      · exact b1k_lt hwf.nbPos key
    have ht' : t' = setValS t b j val := by
      rw [hr0'] at hreq
      exact (Prod.mk.injEq .. ▸ hreq).1
    have hbl : b < t.buckets.length := by rw [hwf.bLen]; exact hb
    have hjl : j < (t.buckets.getD b []).length := by rw [hwf.bEach b hb]; exact hj
    refine ⟨b, j, hbor, hb, hj, ?_, ?_, by rw [ht']; rfl, by rw [ht']; rfl, ?_⟩
    · rw [ht', slotAt_setValS_self hbl hjl, hkey]
    · rw [ht']
      exact WF_setValS hwf hb hj
    · rw [ht', setValS_locks, setValS_nBuckets, hl]
  · have hb : b < t.nBuckets := by
      rcases hbor with rfl | rfl
      · exact b0k_lt hwf.nbPos key
      · exact b1k_lt hwf.nbPos key
    have ht' : t' = placePair t b j key val := by
      rw [hr0'] at hreq
      exact (Prod.mk.injEq .. ▸ hreq).1
    have hbl : b < t.buckets.length := by rw [hwf.bLen]; exact hb
    have hjl : j < (t.buckets.getD b []).length := by rw [hwf.bEach b hb]; exact hj
    refine ⟨b, j, hbor, hb, hj, ?_, ?_, by rw [ht']; rfl, by rw [ht']; rfl, ?_⟩
    · rw [ht', placePair_eq_setCell, slotAt_setCell_self hbl hjl]
    · rw [ht']
      exact WF_placePair hwf hb hj hk hbor habs hbal
    · rw [ht', placePair_eq_setCell, setCell_locks, setCell_nBuckets, hl]
  · rw [hr0'] at hreq
    exact absurd (Prod.mk.injEq .. ▸ hreq).2 (by decide)

/-- A successful upsert followed immediately by a query returns the new
value. -/
theorem upsert_true_find {bs : Nat} {t t' : Table} {key val : Nat}
    (hwf : WF bs t) (hl : t.locks = List.replicate t.nBuckets false) (hk : liveK key)
    (heq : upsert_replace bs t key val = some (t', true)) :
    (find_with_reference bs t' key).2 = some val := by
  obtain ⟨b, j, hbor, hb, hj, hslot, hwf', hnb, hseed, hl'⟩ :=
    upsert_true_live hwf hl hk heq
  have hb' : b < t'.nBuckets := by rw [hnb]; exact hb
  have hkey' : (slotAt t' b j).key = key := by rw [hslot]
  have := find_of_live hwf' hk hb' hj hkey'
  rw [this, hslot]

/-- When the key is already resident, a successful upsert is an in-place
value update of that exact slot. -/
theorem upsert_of_live_in_place {bs : Nat} {t t' : Table} {key val : Nat} {b j : Nat}
    (hwf : WF bs t) (hl : t.locks = List.replicate t.nBuckets false) (hk : liveK key)
    (hb : b < t.nBuckets) (hj : j < bs) (hkey : (slotAt t b j).key = key)
    (heq : upsert_replace bs t key val = some (t', true)) :
    t' = setValS t b j val := by
  obtain ⟨r0, hr0, ho⟩ := @upsert_replace_cases bs t key val hwf hl hk
  have hr0' : r0 = (t', true) := Option.some.inj (hr0.symm.trans heq)
  have hlivej : liveK (slotAt t b j).key := by rw [hkey]; exact hk
  rcases ho with ⟨b', j', hbor, hj', hkey', hreq⟩ | ⟨b', j', hbor, hj', habs, _, _, hreq⟩ |
    ⟨h0, h1, hreq⟩
  · have hb' : b' < t.nBuckets := by
      rcases hbor with rfl | rfl
      · exact b0k_lt hwf.nbPos key
      · exact b1k_lt hwf.nbPos key
    have hpos := hwf.uniq b hb j hj b' hb' j' hj' hlivej (hkey'.trans hkey.symm)
    rw [hr0'] at hreq
    obtain ⟨h1, -⟩ := Prod.mk.injEq .. ▸ hreq
    rw [h1, ← hpos.1, ← hpos.2]
  · exact absurd hkey (habs b hb j hj)
  · rw [hr0'] at hreq
    exact absurd (Prod.mk.injEq .. ▸ hreq).2 (by decide)

/-- The failure direction of the table-full characterisation: a `false`
return leaves the table unchanged and can only happen when both candidate
buckets report no empty and no tombstoned slots. -/
theorem upsert_false_full {bs : Nat} {t t' : Table} {key val : Nat}
    (hwf : WF bs t) (hl : t.locks = List.replicate t.nBuckets false) (hk : liveK key)
    (heq : upsert_replace bs t key val = some (t', false)) :
    t' = t ∧ freeCount bs t (b0k t key) = 0 ∧ freeCount bs t (b1k t key) = 0 := by
  obtain ⟨r0, hr0, ho⟩ := @upsert_replace_cases bs t key val hwf hl hk
  have hr0' : r0 = (t', false) := Option.some.inj (hr0.symm.trans heq)
  rcases ho with ⟨b, j, hbor, hj, hkey, hreq⟩ | ⟨b, j, hbor, hj, habs, htag, hbal, hreq⟩ |
    ⟨h0, h1, hreq⟩
  · rw [hr0'] at hreq
    exact absurd (Prod.mk.injEq .. ▸ hreq).2.symm (by decide)
  · rw [hr0'] at hreq
    exact absurd (Prod.mk.injEq .. ▸ hreq).2.symm (by decide)
  · rw [hr0'] at hreq
    exact ⟨(Prod.mk.injEq .. ▸ hreq).1, h0, h1⟩

/-- The success direction: when both candidate buckets are completely
occupied (no empty, no tombstoned slots), the upsert returns `false` with
the table unchanged — whether or not the key is present. -/
theorem upsert_full_false {bs : Nat} {t : Table} {key val : Nat}
    (hl : t.locks = List.replicate t.nBuckets false)
    (h0 : freeCount bs t (b0k t key) = 0) (h1 : freeCount bs t (b1k t key) = 0) :
    upsert_replace bs t key val = some (t, false) := by
  have he0 : emptyCount bs t (b0k t key) = 0 :=
    Nat.le_zero.mp (h0 ▸ emptyCount_le_freeCount bs t (b0k t key))
  have hcond : ¬ 4 * (bs - countT (emptyMask bs (lockB t (b0k t key)) (b0k t key))) < 3 * bs := by
    have hc : countT (emptyMask bs (lockB t (b0k t key)) (b0k t key))
        = emptyCount bs t (b0k t key) := countT_emptyMask ..
    rw [hc, he0]
    omega
  have hp1 : upsert_phase1 bs (first_bucket t (hashKey t key)) key val (bs + 1)
      (lockB t (first_bucket t (hashKey t key)))
      = some (lockB t (first_bucket t (hashKey t key)), none) :=
    @phase1_exit bs (b0k t key) key val (lockB t (b0k t key)) bs hcond
  have hp2 : upsert_phase2 bs (first_bucket t (hashKey t key))
      (second_bucket (lockB t (first_bucket t (hashKey t key))) (hashKey t key)) key val
      (bs + 1) (lockB t (first_bucket t (hashKey t key)))
      = some (lockB t (b0k t key), false) :=
    @phase2_full bs (b0k t key) (b1k t key) key val (lockB t (b0k t key)) bs h0 h1
  have hint : upsert_replace_internal bs (lockB t (first_bucket t (hashKey t key))) key val
      (hashKey t key) (first_bucket t (hashKey t key))
      = some (lockB t (b0k t key), false) := by
    unfold upsert_replace_internal
    simp only [hp1]
    exact hp2
  unfold upsert_replace
  simp only [hint]
  exact congrArg (fun y => some (y, false)) (unlockB_lockB (x := t)
    (b := b0k t key) (n := t.nBuckets) hl)

/-- A successful `remove` erased exactly the key's unique slot. -/
theorem remove_true_erased {bs : Nat} {t t' : Table} {key : Nat}
    (hwf : WF bs t) (hl : t.locks = List.replicate t.nBuckets false) (hk : liveK key)
    (heq : removeOp bs t key = (t', true)) :
    ∃ b j, (b = b0k t key ∨ b = b1k t key) ∧ b < t.nBuckets ∧ j < bs ∧
      (slotAt t b j).key = key ∧ t' = eraseAt t b j := by
  have ho := @remove_cases bs t key hwf hl hk
  rw [heq] at ho
  rcases ho with ⟨b, j, hbor, hb, hj, hkey, hreq⟩ | ⟨habs, hreq⟩
  · exact ⟨b, j, hbor, hb, hj, hkey, (Prod.mk.injEq .. ▸ hreq).1⟩
  · exact absurd (Prod.mk.injEq .. ▸ hreq).2.symm (by decide)

/-- After erasing the key's unique slot, the key is absent everywhere. -/
theorem eraseAt_absent {bs : Nat} {t : Table} {b j key : Nat}
    (hwf : WF bs t) (hk : liveK key) (hb : b < t.nBuckets) (hj : j < bs)
    (hkey : (slotAt t b j).key = key) :
    ∀ b' < t.nBuckets, ∀ i' < bs, (slotAt (eraseAt t b j) b' i').key ≠ key := by
  intro b' hb' i' hi'
  have hbl : b < t.buckets.length := by rw [hwf.bLen]; exact hb
  have hjl : j < (t.buckets.getD b []).length := by rw [hwf.bEach b hb]; exact hj
  have hlivej : liveK (slotAt t b j).key := by rw [hkey]; exact hk
  rw [eraseAt_eq_setCell]
  by_cases hc : b = b' ∧ j = i'
  · obtain ⟨rfl, rfl⟩ := hc
    rw [slotAt_setCell_self hbl hjl, slot_mk_key]
    intro h
    exact hk.2.2.1 h.symm
  · rw [slotAt_setCell_ne (by tauto)]
    intro h
    have := hwf.uniq b hb j hj b' hb' i' hi' hlivej (h.trans hkey.symm)
    exact hc ⟨this.1, this.2⟩

/-- While the primary bucket's occupancy — counted as
`bucket_size - popcount(empty_match)`, i.e. with tombstones counted as
occupied — is below the `P2_MD_CUTOFF` threshold, an upsert of an absent
key is resolved entirely in the primary bucket by the shortcut phase. -/
theorem upsert_shortcut_claims {bs : Nat} {t : Table} {key val : Nat}
    (hl : t.locks = List.replicate t.nBuckets false)
    (hcond : 4 * (bs - emptyCount bs t (b0k t key)) < 3 * bs)
    (habs0 : ∀ i < bs, (slotAt t (b0k t key) i).key ≠ key) :
    ∃ j < bs, (tagAt t (b0k t key) j = emptyTag ∨ tagAt t (b0k t key) j = tombstoneTag) ∧
      upsert_replace bs t key val = some (placePair t (b0k t key) j key val, true) := by
  have hcondL : 4 * (bs - countT (emptyMask bs (lockB t (b0k t key)) (b0k t key))) < 3 * bs := by
    have hc : countT (emptyMask bs (lockB t (b0k t key)) (b0k t key))
        = emptyCount bs (lockB t (b0k t key)) (b0k t key) := countT_emptyMask ..
    rw [hc, emptyCount_lockB]
    exact hcond
  have habs0L : ∀ i < bs, (slotAt (lockB t (b0k t key)) (b0k t key) i).key ≠ key := habs0
  obtain ⟨j, hjlt, htagor, heq⟩ :=
    @phase1_claim bs (b0k t key) key val (lockB t (b0k t key)) bs hcondL habs0L
  have heq' : upsert_phase1 bs (first_bucket t (hashKey t key)) key val (bs + 1)
      (lockB t (first_bucket t (hashKey t key)))
      = some (placePair (lockB t (b0k t key)) (b0k t key) j key val, some true) := heq
  have hint : upsert_replace_internal bs (lockB t (first_bucket t (hashKey t key))) key val
      (hashKey t key) (first_bucket t (hashKey t key))
      = some (placePair (lockB t (b0k t key)) (b0k t key) j key val, true) := by
    unfold upsert_replace_internal
    simp only [heq']
  refine ⟨j, hjlt, htagor, ?_⟩
  unfold upsert_replace
  simp only [hint]
  rw [placePair_lockB]
  exact congrArg (fun y => some (y, true))
    (unlockB_lockB (x := placePair t (b0k t key) j key val) (b := b0k t key)
      (n := t.nBuckets) (by rw [placePair_locks, hl]))

/-- A failed `remove` leaves the table unchanged, and happens exactly when
the key is absent. -/
theorem remove_false_absent {bs : Nat} {t t' : Table} {key : Nat}
    (hwf : WF bs t) (hl : t.locks = List.replicate t.nBuckets false) (hk : liveK key)
    (heq : removeOp bs t key = (t', false)) :
    t' = t ∧ ∀ b' < t.nBuckets, ∀ i' < bs, (slotAt t b' i').key ≠ key := by
  have ho := @remove_cases bs t key hwf hl hk
  rw [heq] at ho
  rcases ho with ⟨b, j, hbor, hb, hj, hkey, hreq⟩ | ⟨habs, hreq⟩
  · exact absurd (Prod.mk.injEq .. ▸ hreq).2.symm (by decide)
  · exact ⟨(Prod.mk.injEq .. ▸ hreq).1, habs⟩

/-- An upsert only ever writes its own key: every slot key of the result is
either the old slot key or the upserted key. -/
theorem upsert_keys_subset {bs : Nat} {t t' : Table} {key val : Nat} {r : Bool}
    (hwf : WF bs t) (hl : t.locks = List.replicate t.nBuckets false) (hk : liveK key)
    (heq : upsert_replace bs t key val = some (t', r)) :
    ∀ b' i', (slotAt t' b' i').key = (slotAt t b' i').key ∨ (slotAt t' b' i').key = key := by
  obtain ⟨r0, hr0, ho⟩ := @upsert_replace_cases bs t key val hwf hl hk
  have hr0' : r0 = (t', r) := Option.some.inj (hr0.symm.trans heq)
  intro b' i'
  rcases ho with ⟨b, j, hbor, hj, hkey, hreq⟩ | ⟨b, j, hbor, hj, habs, htag, hbal, hreq⟩ |
    ⟨h0, h1, hreq⟩
  · have hb : b < t.nBuckets := by
      rcases hbor with rfl | rfl
      · exact b0k_lt hwf.nbPos key
      · exact b1k_lt hwf.nbPos key
    have hbl : b < t.buckets.length := by rw [hwf.bLen]; exact hb
    have hjl : j < (t.buckets.getD b []).length := by rw [hwf.bEach b hb]; exact hj
    have ht' : t' = setValS t b j val := by
      rw [hr0'] at hreq
      exact (Prod.mk.injEq .. ▸ hreq).1
    rw [ht', slotKey_setValS hbl hjl]
    exact Or.inl rfl
  · have hb : b < t.nBuckets := by
      rcases hbor with rfl | rfl
      · exact b0k_lt hwf.nbPos key
      · exact b1k_lt hwf.nbPos key
    have hbl : b < t.buckets.length := by rw [hwf.bLen]; exact hb
    have hjl : j < (t.buckets.getD b []).length := by rw [hwf.bEach b hb]; exact hj
    have ht' : t' = placePair t b j key val := by
      rw [hr0'] at hreq
      exact (Prod.mk.injEq .. ▸ hreq).1
    rw [ht', placePair_eq_setCell]
    by_cases hc : b = b' ∧ j = i'
    · obtain ⟨rfl, rfl⟩ := hc
      rw [slotAt_setCell_self hbl hjl, slot_mk_key]
      exact Or.inr rfl
    · rw [slotAt_setCell_ne (by tauto)]
      exact Or.inl rfl
  · have ht' : t' = t := by
      rw [hr0'] at hreq
      exact (Prod.mk.injEq .. ▸ hreq).1
    rw [ht']
    exact Or.inl rfl

/-- Candidate buckets depend only on the seed and the bucket count. -/
theorem b0k_congr {t t' : Table} (hn : t'.nBuckets = t.nBuckets) (hs : t'.seed = t.seed)
    (k : Nat) : b0k t' k = b0k t k := by
  unfold b0k first_bucket hashKey
  rw [hn, hs]

theorem b1k_congr {t t' : Table} (hn : t'.nBuckets = t.nBuckets) (hs : t'.seed = t.seed)
    (k : Nat) : b1k t' k = b1k t k := by
  unfold b1k second_bucket hashKey
  rw [hn, hs]

theorem tagAt_eraseAt_self {bs : Nat} {t : Table} {b j : Nat}
    (hwf : WF bs t) (hb : b < t.nBuckets) (hj : j < bs) :
    tagAt (eraseAt t b j) b j = tombstoneTag := by
  have hml : b < t.md.length := by rw [hwf.mLen]; exact hb
  have hjm : j < (t.md.getD b []).length := by rw [hwf.mEach b hb]; exact hj
  rw [eraseAt_eq_setCell]
  exact tagAt_setCell_self hml hjm ..

theorem tagAt_eraseAt_ne {t : Table} {b j b' i' : Nat} (h : b ≠ b' ∨ j ≠ i') :
    tagAt (eraseAt t b j) b' i' = tagAt t b' i' := by
  rw [eraseAt_eq_setCell]
  exact tagAt_setCell_ne h ..

/-! ## Concrete tables used by the witnesses and counterexamples

All are built from `generate_on_device`-initialised tables by the public
operations only, so they are reachable states of the system.  `bucket_size`
is 4; capacity 4 gives a single bucket (both candidate buckets coincide for
every key), capacity 8 gives two buckets. -/

/-- The post-state of an upsert (the table component of its result). -/
def stepU (bs : Nat) (t : Table) (k v : Nat) : Table :=
  match upsert_replace bs t k v with
  | some (t', _) => t'
  | none => t

/-- The post-state of a remove. -/
def stepR (bs : Nat) (t : Table) (k : Nat) : Table := (removeOp bs t k).1

def T0c : Table := initTable 4 4 0

def T1c : Table := stepU 4 T0c 2 20

def T2c : Table := stepU 4 T1c 3 30

def T3c : Table := stepU 4 T2c 5 50

def T4c : Table := stepU 4 T3c 7 70

def T5c : Table := stepR 4 T4c 7

def S0c : Table := initTable 4 8 0

def Sa : Table := stepU 4 S0c 2 20

def Sb : Table := stepU 4 Sa 3 30

def S1c : Table := stepU 4 Sb 5 50

def S2c : Table := stepR 4 S1c 2

def S3c : Table := stepR 4 S2c 3

def S4c : Table := stepU 4 S3c 4 40

theorem reach_T1c : Reachable 4 T1c :=
  @Reachable.upsert 4 T0c T1c true 2 20 (Reachable.init 4 0) (by decide) (by decide)

theorem reach_T2c : Reachable 4 T2c :=
  @Reachable.upsert 4 T1c T2c true 3 30 reach_T1c (by decide) (by decide)

theorem reach_T3c : Reachable 4 T3c :=
  @Reachable.upsert 4 T2c T3c true 5 50 reach_T2c (by decide) (by decide)

theorem reach_T4c : Reachable 4 T4c :=
  @Reachable.upsert 4 T3c T4c true 7 70 reach_T3c (by decide) (by decide)

theorem reach_S1c : Reachable 4 S1c :=
  @Reachable.upsert 4 Sb S1c true 5 50
    (@Reachable.upsert 4 Sa Sb true 3 30
      (@Reachable.upsert 4 S0c Sa true 2 20 (Reachable.init 8 0)
        (by decide) (by decide))
      (by decide) (by decide))
    (by decide) (by decide)

theorem reach_S3c : Reachable 4 S3c :=
  @Reachable.remove 4 S2c S3c true 3
    (@Reachable.remove 4 S1c S2c true 2 reach_S1c (by decide) (by decide))
    (by decide) (by decide)

/-! ## The claims -/

/-- Claim C1, counterexample.  In the reachable table `T4c` both candidate
buckets of key `2` are completely full and key `2` is resident with value
`20`; the claimed unconditional round trip fails: `upsert(2, 99)` returns
`false` leaving the table unchanged, and the immediately following
`query(2)` returns the old value `20`, not `99`. -/
theorem c1_counterexample :
    liveK 2 ∧
    upsert_replace 4 T4c 2 99 = some (T4c, false) ∧
    (find_with_reference 4 T4c 2).2 = some 20 ∧ some (20 : Nat) ≠ some 99 := by
  refine ⟨by decide, by decide, by decide, by decide⟩

/-- Claim C1 (amended): for every non-sentinel key and value, if the upsert
succeeds (returns `true`) on a reachable table, then an immediately
following query returns the new value.  (Unconditionally the round trip can
fail: when both candidate buckets are completely full the upsert returns
`false` and the old value survives, as `c1_counterexample` shows.) -/
theorem c1_roundtrip_amended {bs : Nat} {t t' : Table} {key val : Nat}
    (hre : Reachable bs t) (hk : liveK key)
    (heq : upsert_replace bs t key val = some (t', true)) :
    (find_with_reference bs t' key).2 = some val := by
  obtain ⟨hwf, hl⟩ := Reachable_WF hre
  exact upsert_true_find hwf hl hk heq

theorem c1_roundtrip_witness :
    (find_with_reference 4 T1c 2).2 = some 20 :=
  c1_roundtrip_amended (show Reachable 4 T0c from Reachable.init 4 0) (by decide)
    (by decide : upsert_replace 4 T0c 2 20 = some (T1c, true))

/-- Claim C2: in every table reachable from the initialised state by the
public operations, at most one live slot across the whole table (in
particular across the key's two candidate buckets) holds any given key: two
slots holding the same live key coincide. -/
theorem c2_uniqueness {bs : Nat} {t : Table} (hre : Reachable bs t)
    {b i b' i' : Nat} (hb : b < t.nBuckets) (hi : i < bs)
    (hb' : b' < t.nBuckets) (hi' : i' < bs)
    (hlive : liveK (slotAt t b i).key)
    (hsame : (slotAt t b' i').key = (slotAt t b i).key) :
    b = b' ∧ i = i' := by
  obtain ⟨hwf, -⟩ := Reachable_WF hre
  exact hwf.uniq b hb i hi b' hb' i' hi' hlive hsame

theorem c2_uniqueness_witness :
    liveK (slotAt T2c 0 0).key ∧ ((0 : Nat) = 0 ∧ (0 : Nat) = 0) :=
  ⟨by decide, c2_uniqueness reach_T2c (by decide) (by decide) (by decide)
    (by decide) (by decide) (by decide)⟩

/-- Occupancy exactly as claim C3 words it: the number of slots of the
bucket whose tags are neither the empty tag nor the tombstone tag.  This is
a spec-side definition, introduced only to compare the claim's wording with
the cutoff measure the code actually tests (`bucket_size` minus the
popcount of the empty matches alone). -/
def liveTagCount (bs : Nat) (t : Table) (b : Nat) : Nat :=
  (List.range bs).countP
    (fun i => !(tagAt t b i == emptyTag) && !(tagAt t b i == tombstoneTag))

/-- Claim C3, counterexample.  In the reachable table `S3c`, bucket `0` is
the primary bucket of key `4` and holds two tombstones, one live tag and
one empty tag, so the occupancy in the claim's sense (neither-empty-nor-
tombstone count) is `1 < 3 = 75%` of `bucket_size` — yet the upsert of the
absent key `4` is not resolved by the primary-bucket shortcut: it leaves
bucket `0` untouched (its tombstones and empty slot unclaimed) and places
the pair in the secondary bucket `1`.  The code's cutoff test counts
tombstoned slots as occupied. -/
theorem c3_counterexample :
    b0k S3c 4 = 0 ∧ b1k S3c 4 = 1 ∧
    liveTagCount 4 S3c 0 = 1 ∧ 4 * liveTagCount 4 S3c 0 < 3 * 4 ∧
    0 < tombCount 4 S3c 0 ∧
    upsert_replace 4 S3c 4 40 = some (S4c, true) ∧
    (∀ i < 4, tagAt S4c 0 i = tagAt S3c 0 i ∧ slotAt S4c 0 i = slotAt S3c 0 i) ∧
    slotAt S4c 1 0 = ⟨4, 40⟩ := by
  refine ⟨by decide, by decide, by decide, by decide, by decide, by decide,
    by decide, by decide⟩

/-- Claim C3 (amended): the shortcut phase runs exactly while the primary
bucket's occupancy measured as `bucket_size - popcount(empty)` — tombstoned
slots counted as occupied, unlike the claim's neither-empty-nor-tombstone
count — is below `75%` of `bucket_size`; while it runs, an upsert of an
absent key is resolved entirely in the primary bucket, claiming an empty or
tombstoned slot there. -/
theorem c3_cutoff_amended {bs : Nat} {t : Table} {key val : Nat}
    (hre : Reachable bs t)
    (hcond : 4 * (bs - emptyCount bs t (b0k t key)) < 3 * bs)
    (habs0 : ∀ i < bs, (slotAt t (b0k t key) i).key ≠ key) :
    ∃ j < bs, (tagAt t (b0k t key) j = emptyTag ∨ tagAt t (b0k t key) j = tombstoneTag) ∧
      upsert_replace bs t key val = some (placePair t (b0k t key) j key val, true) := by
  obtain ⟨-, hl⟩ := Reachable_WF hre
  exact upsert_shortcut_claims hl hcond habs0

theorem c3_cutoff_witness :
    ∃ j < 4, (tagAt T0c (b0k T0c 2) j = emptyTag ∨ tagAt T0c (b0k T0c 2) j = tombstoneTag) ∧
      upsert_replace 4 T0c 2 20 = some (placePair T0c (b0k T0c 2) j 2 20, true) :=
  c3_cutoff_amended (show Reachable 4 T0c from Reachable.init 4 0)
    (by decide) (by decide)

/-- Claim C4, counterexample.  In the reachable table `T4c` both candidate
buckets of key `2` report zero empty and zero tombstoned slots, but a slot
matching key `2` exists — and `upsert(2, 99)` still returns `false`: the
matching slot does not prevent the failure, because the balancing loop is
never entered when both buckets are full, so no update-in-place is
attempted.  This refutes the "and no slot matching k" part of the claimed
failure condition. -/
theorem c4_counterexample :
    freeCount 4 T4c (b0k T4c 2) = 0 ∧ freeCount 4 T4c (b1k T4c 2) = 0 ∧
    (slotAt T4c (b0k T4c 2) 0).key = 2 ∧
    upsert_replace 4 T4c 2 99 = some (T4c, false) := by
  refine ⟨by decide, by decide, by decide, by decide⟩

/-- Claim C4 (amended): on a reachable table, `upsert(k, v)` returns
`false` exactly when both candidate buckets report zero empty and zero
tombstoned slots — regardless of whether a slot matching `k` is present —
and in that case the table is unchanged; conversely whenever both buckets
are completely occupied the upsert returns `false` with the table
unchanged. -/
theorem c4_full_amended {bs : Nat} {t t' : Table} {key val : Nat}
    (hre : Reachable bs t) (hk : liveK key) :
    (upsert_replace bs t key val = some (t', false) →
      t' = t ∧ freeCount bs t (b0k t key) = 0 ∧ freeCount bs t (b1k t key) = 0) ∧
    (freeCount bs t (b0k t key) = 0 → freeCount bs t (b1k t key) = 0 →
      upsert_replace bs t key val = some (t, false)) := by
  obtain ⟨hwf, hl⟩ := Reachable_WF hre
  exact ⟨fun heq => upsert_false_full hwf hl hk heq,
    fun h0 h1 => upsert_full_false hl h0 h1⟩

theorem c4_full_witness :
    (upsert_replace 4 T4c 2 99 = some (T4c, false) →
      T4c = T4c ∧ freeCount 4 T4c (b0k T4c 2) = 0 ∧ freeCount 4 T4c (b1k T4c 2) = 0) ∧
    (freeCount 4 T4c (b0k T4c 2) = 0 → freeCount 4 T4c (b1k T4c 2) = 0 →
      upsert_replace 4 T4c 2 99 = some (T4c, false)) :=
  @c4_full_amended 4 T4c T4c 2 99 reach_T4c (by decide)

/-- Claim C5, counterexample.  Starting from the reachable table `T3c`,
`upsert(7, 70)` succeeds and fills the last slot; the immediate replay
`upsert(7, 99)` then returns `false` (both candidate buckets are full, so
the balancing loop is never entered and the existing slot is not updated),
and `query(7)` returns the first value `70`, not `99`.  The claimed
unconditional `upsert(k, v1); upsert(k, v2); query(k) == v2` fails. -/
theorem c5_counterexample :
    upsert_replace 4 T3c 7 70 = some (T4c, true) ∧
    upsert_replace 4 T4c 7 99 = some (T4c, false) ∧
    (find_with_reference 4 T4c 7).2 = some 70 ∧ some (70 : Nat) ≠ some 99 := by
  refine ⟨by decide, by decide, by decide, by decide⟩

/-- Claim C5 (amended): if both upserts succeed (return `true`), then the
replayed key queries to the second value, and the second upsert was an
update-in-place of the slot holding the key — a value-only store to the
very slot filled by the first upsert, never a second slot. -/
theorem c5_idempotence_amended {bs : Nat} {t t1 t2 : Table} {key v1 v2 : Nat}
    (hre : Reachable bs t) (hk : liveK key)
    (h1 : upsert_replace bs t key v1 = some (t1, true))
    (h2 : upsert_replace bs t1 key v2 = some (t2, true)) :
    (find_with_reference bs t2 key).2 = some v2 ∧
    ∃ b j, b < t1.nBuckets ∧ j < bs ∧ (slotAt t1 b j).key = key ∧
      t2 = setValS t1 b j v2 := by
  have hre1 : Reachable bs t1 := Reachable.upsert key v1 hre hk h1
  obtain ⟨hwf, hl⟩ := Reachable_WF hre
  obtain ⟨hwf1, hl1⟩ := Reachable_WF hre1
  obtain ⟨b, j, hbor, hb, hj, hslot, -, hnb, -, -⟩ := upsert_true_live hwf hl hk h1
  have hb1 : b < t1.nBuckets := by rw [hnb]; exact hb
  have hkey1 : (slotAt t1 b j).key = key := by rw [hslot]
  refine ⟨upsert_true_find hwf1 hl1 hk h2, b, j, hb1, hj, hkey1, ?_⟩
  exact upsert_of_live_in_place hwf1 hl1 hk hb1 hj hkey1 h2

theorem c5_idempotence_witness :
    (find_with_reference 4 (stepU 4 T1c 2 25) 2).2 = some 25 ∧
    ∃ b j, b < T1c.nBuckets ∧ j < 4 ∧ (slotAt T1c b j).key = 2 ∧
      stepU 4 T1c 2 25 = setValS T1c b j 25 :=
  c5_idempotence_amended (show Reachable 4 T0c from Reachable.init 4 0) (by decide)
    (by decide : upsert_replace 4 T0c 2 20 = some (T1c, true))
    (by decide : upsert_replace 4 T1c 2 25 = some (stepU 4 T1c 2 25, true))

/-- Claim C6: on a reachable table, after `remove(k)` returns `true` an
immediately following `query(k)` returns not-found, and a subsequent
`upsert(k, v2)` returns success (the tombstone left by the remove keeps a
candidate bucket non-full), after which `query(k)` returns `v2`. -/
theorem c6_deletion_visibility {bs : Nat} {t t' : Table} {key v2 : Nat}
    (hre : Reachable bs t) (hk : liveK key)
    (hrm : removeOp bs t key = (t', true)) :
    (find_with_reference bs t' key).2 = none ∧
    ∃ t2, upsert_replace bs t' key v2 = some (t2, true) ∧
      (find_with_reference bs t2 key).2 = some v2 := by
  obtain ⟨hwf, hl⟩ := Reachable_WF hre
  have hre' : Reachable bs t' := Reachable.remove key hre hk hrm
  obtain ⟨hwf', hl'⟩ := Reachable_WF hre'
  obtain ⟨b, j, hbor, hb, hj, hkey, ht'⟩ := remove_true_erased hwf hl hk hrm
  have hnb' : t'.nBuckets = t.nBuckets := by rw [ht']; rfl
  have hseed' : t'.seed = t.seed := by rw [ht']; rfl
  have habs : ∀ b' < t'.nBuckets, ∀ i' < bs, (slotAt t' b' i').key ≠ key := by
    rw [ht']
    exact eraseAt_absent hwf hk hb hj hkey
  have hfind : (find_with_reference bs t' key).2 = none :=
    find_of_absent habs (by rw [hnb']; exact hwf.nbPos)
  have htag' : tagAt t' b j = tombstoneTag := by
    rw [ht']
    exact tagAt_eraseAt_self hwf hb hj
  have hfree : 0 < freeCount bs t' b := freeCount_pos_of_tag hj (Or.inr htag')
  obtain ⟨r0, hr0, ho⟩ := @upsert_replace_cases bs t' key v2 hwf' hl' hk
  rcases ho with ⟨b', j', hbor', hj', hkey', -⟩ | ⟨b', j', hbor', hj', -, -, -, hreq⟩ |
    ⟨h0, h1, -⟩
  · -- update-in-place is impossible: the key is absent after the erase
    have hb' : b' < t'.nBuckets := by
      rcases hbor' with rfl | rfl
      · exact b0k_lt hwf'.nbPos key
      · exact b1k_lt hwf'.nbPos key
    exact absurd hkey' (habs b' hb' j' hj')
  · -- a free slot is claimed: the upsert succeeds and is retrievable
    refine ⟨hfind, placePair t' b' j' key v2, ?_, ?_⟩
    · rw [hr0, hreq]
    · exact upsert_true_find hwf' hl' hk (by rw [hr0, hreq])
  · -- table-full is impossible: the fresh tombstone keeps a candidate
    -- bucket of the key non-full
    exfalso
    have hb0 : b0k t' key = b0k t key := b0k_congr hnb' hseed' key
    have hb1 : b1k t' key = b1k t key := b1k_congr hnb' hseed' key
    rcases hbor with rfl | rfl
    · rw [hb0] at h0
      omega
    · rw [hb1] at h1
      omega

theorem c6_deletion_visibility_witness :
    (find_with_reference 4 (stepR 4 T2c 2) 2).2 = none ∧
    ∃ t2, upsert_replace 4 (stepR 4 T2c 2) 2 25 = some (t2, true) ∧
      (find_with_reference 4 t2 2).2 = some 25 :=
  c6_deletion_visibility reach_T2c (by decide)
    (by decide : removeOp 4 T2c 2 = (stepR 4 T2c 2, true))

/-- Claim C7: on a reachable table, after `remove(k1)` returns `true`, an
upsert of any non-sentinel key `k2` whose two candidate buckets are those
of `k1` succeeds — even when the buckets contain no empty slot — because
the remove left a tombstoned slot in one of those buckets, so the
table-full outcome is impossible and a slot is matched or claimed. -/
theorem c7_tombstone_reuse {bs : Nat} {t t' : Table} {k1 k2 v2 : Nat}
    (hre : Reachable bs t) (hk1 : liveK k1) (hk2 : liveK k2)
    (hrm : removeOp bs t k1 = (t', true))
    (hb0 : b0k t k2 = b0k t k1) (hb1 : b1k t k2 = b1k t k1) :
    ∃ t2, upsert_replace bs t' k2 v2 = some (t2, true) := by
  obtain ⟨hwf, hl⟩ := Reachable_WF hre
  have hre' : Reachable bs t' := Reachable.remove k1 hre hk1 hrm
  obtain ⟨hwf', hl'⟩ := Reachable_WF hre'
  obtain ⟨b, j, hbor, hb, hj, hkey, ht'⟩ := remove_true_erased hwf hl hk1 hrm
  have hnb' : t'.nBuckets = t.nBuckets := by rw [ht']; rfl
  have hseed' : t'.seed = t.seed := by rw [ht']; rfl
  have htag' : tagAt t' b j = tombstoneTag := by
    rw [ht']
    exact tagAt_eraseAt_self hwf hb hj
  have hfree : 0 < freeCount bs t' b := freeCount_pos_of_tag hj (Or.inr htag')
  obtain ⟨r0, hr0, ho⟩ := @upsert_replace_cases bs t' k2 v2 hwf' hl' hk2
  rcases ho with ⟨b', j', hbor', hj', hkey', hreq⟩ | ⟨b', j', hbor', hj', -, -, -, hreq⟩ |
    ⟨h0, h1, -⟩
  · exact ⟨setValS t' b' j' v2, by rw [hr0, hreq]⟩
  · exact ⟨placePair t' b' j' k2 v2, by rw [hr0, hreq]⟩
  · exfalso
    have h0' : freeCount bs t' (b0k t k1) = 0 := by
      rw [← hb0, ← b0k_congr hnb' hseed' k2]
      exact h0
    have h1' : freeCount bs t' (b1k t k1) = 0 := by
      rw [← hb1, ← b1k_congr hnb' hseed' k2]
      exact h1
    rcases hbor with rfl | rfl
    · omega
    · omega

theorem c7_tombstone_reuse_witness :
    ∃ t2, upsert_replace 4 T5c 9 90 = some (t2, true) :=
  c7_tombstone_reuse reach_T4c (by decide) (by decide)
    (by decide : removeOp 4 T4c 7 = (T5c, true))
    (by decide : b0k T4c 9 = b0k T4c 7) (by decide : b1k T4c 9 = b1k T4c 7)

/-- Claim C8: for every key, the tag derivation terminates — any fuel of at
least two steps computes the same value, i.e. the stepping loop exits
within two iterations — and the derived tag is a 16-bit value different
from both reserved tags, so a derived tag never presents a key as empty or
tombstoned. -/
theorem c8_tag_reserved (key f : Nat) :
    get_tag key ≠ emptyTag ∧ get_tag key ≠ tombstoneTag ∧ get_tag key < U16 ∧
    get_tag_go (f + 2) key = get_tag key := by
  obtain ⟨h1, h2, h3⟩ := get_tag_spec key
  exact ⟨h1, h2, h3, get_tag_go_fuel (by omega) key⟩

/-- Claim C9, counterexample.  At requested capacity `0` the constructor's
bucket-count computation `(capacity - 1) / bucket_size + 1` underflows in
64-bit arithmetic: with `bucket_size = 4` it yields `2^62` buckets, not
`ceil(0 / 4) = 0`. -/
theorem c9_counterexample :
    n_buckets_of 0 4 = 4611686018427387904 ∧
    (0 + 4 - 1) / 4 = 0 ∧ (4611686018427387904 : Nat) ≠ 0 := by
  refine ⟨by decide, by decide, by decide⟩

/-- Claim C9 (amended): for every requested capacity with
`1 ≤ capacity < 2^64` and positive `bucket_size`, the constructed table has
`n_buckets = ceil(capacity / bucket_size)`; the formula underflows only at
capacity `0`, as `c9_counterexample` shows. -/
theorem c9_nbuckets_amended {capacity bs : Nat} (h1 : 1 ≤ capacity)
    (h2 : capacity < U64) (h3 : 0 < bs) :
    n_buckets_of capacity bs = (capacity + bs - 1) / bs := by
  unfold n_buckets_of
  have hm : (capacity + (U64 - 1)) % U64 = capacity - 1 := by
    have hrw : capacity + (U64 - 1) = (capacity - 1) + U64 := by
      have hpos : 0 < U64 := by decide
      omega
    rw [hrw, Nat.add_mod_right]
    exact Nat.mod_eq_of_lt (by omega)
  rw [hm]
  have hc : capacity + bs - 1 = (capacity - 1) + bs := by omega
  rw [hc, Nat.add_div_right _ h3]

theorem c9_nbuckets_witness : n_buckets_of 7 4 = (7 + 4 - 1) / 4 :=
  c9_nbuckets_amended (by decide) (by decide) (by decide)

/-- Claim C10: the query operations perform no writes at all — for every
table state and key, both `find_with_reference` and
`find_with_reference_no_lock` return the table exactly as given (same
bucket store, same metadata store, same lock table; in particular no lock
is left taken), the only effect being the returned optional value. -/
theorem c10_query_pure (bs : Nat) (t : Table) (key : Nat) :
    (find_with_reference bs t key).1 = t ∧
    (find_with_reference_no_lock bs t key).1 = t ∧
    (find_with_reference bs t key).1.buckets = t.buckets ∧
    (find_with_reference bs t key).1.md = t.md ∧
    (find_with_reference bs t key).1.locks = t.locks := by
  refine ⟨find_state bs t key, find_no_lock_state bs t key, ?_, ?_, ?_⟩ <;>
    rw [find_state]

end P2MD
